import Mathlib

/-!
# Undo/redo transaction manager (`src/main.cpp`)

A shallow embedding of `class TransactionManager` and its nested
`struct Transaction`.

Modelling conventions

* The callbacks are `std::function<void()>` closures over caller-owned data.
  Here the caller-owned data has type `σ` and a callback is a function
  `σ → σ`.  Callbacks do not call back into the manager and do not throw.
* `World σ` is the caller-owned data together with a ghost log of every
  callback invocation, in order.  The log is what makes "invokes no
  callback" and "invokes redo exactly once" expressible; the manager
  never reads it.
* `mTimeLine` is a `std::vector<Transaction>`, here a `List`.
  `mCurrent` is a `std::vector<Transaction>::iterator`; it is modelled by
  its offset from `mTimeLine.begin()`, an `Int`.  `mTimeLine.end()` is the
  offset `mTimeLine.length`; one step before `begin()` is the offset `-1`.
* `assert(c)` is enabled: when `c` is false the call stops with
  `Fault.assertion`.  Dereferencing an iterator whose offset is not inside
  `[0, size())` is undefined behaviour in C++; the model stops there with
  `Fault.outOfRange`, which is a different outcome from the assertion.
  A stopped call reports the fault together with the world at that point:
  callbacks that ran before the out-of-range access are in it.  `undo`, `redo`
  and `rollback` read the transaction before they call anything;
  `storeAndExecute` calls `redo_f()` first and touches the transaction after.
-/

namespace UndoRedo

/-- The `redo_function_t` alias: `std::function<void()>` acting on caller data. -/
abbrev redo_function_t (σ : Type) : Type := σ → σ

/-- The `undo_function_t` alias: `std::function<void()>` acting on caller data. -/
abbrev undo_function_t (σ : Type) : Type := σ → σ

/-- The `operation` alias: `std::tuple<redo_function_t, undo_function_t>`. -/
abbrev operation (σ : Type) : Type := redo_function_t σ × undo_function_t σ

/-- One callback invocation: which slot of an operation was called, and the callable. -/
inductive Call (σ : Type) : Type where
  | redo (f : redo_function_t σ) : Call σ
  | undo (f : undo_function_t σ) : Call σ

/-- Caller-owned data plus the ghost log of callback invocations. -/
structure World (σ : Type) : Type where
  data : σ
  calls : List (Call σ)

/-- Calling `redo_f()` or `get<0>(op)()`: run the callable, log the invocation. -/
def World.invokeRedo {σ : Type} (w : World σ) (f : redo_function_t σ) : World σ :=
  { data := f w.data, calls := w.calls ++ [Call.redo f] }

/-- Calling `get<1>(op)()`: run the callable, log the invocation. -/
def World.invokeUndo {σ : Type} (w : World σ) (f : undo_function_t σ) : World σ :=
  { data := f w.data, calls := w.calls ++ [Call.undo f] }

/-- The nested `struct Transaction`. -/
structure Transaction (σ : Type) : Type where
  mWhat : String
  mOperations : List (operation σ)

/-- `Transaction::storeAndExecute`: call `redo_f()`, then `emplace_back` the pair. -/
def Transaction.storeAndExecute {σ : Type} (t : Transaction σ)
    (redo_f : redo_function_t σ) (undo_f : undo_function_t σ) (w : World σ) :
    Transaction σ × World σ :=
  let w1 := w.invokeRedo redo_f
  ({ mWhat := t.mWhat, mOperations := t.mOperations ++ [(redo_f, undo_f)] }, w1)

/-- `Transaction::redo`: from `rbegin()` to `rend()`, call `get<0>(*it)()`. -/
def Transaction.redo {σ : Type} (t : Transaction σ) (w : World σ) : World σ :=
  t.mOperations.reverse.foldl (fun acc op => acc.invokeRedo op.1) w

/-- `Transaction::undo`: for each `op` in `mOperations`, front to back, call `get<1>(op)()`. -/
def Transaction.undo {σ : Type} (t : Transaction σ) (w : World σ) : World σ :=
  t.mOperations.foldl (fun acc op => acc.invokeUndo op.2) w

/-- How a call can stop early. -/
inductive Fault : Type where
  | assertion : Fault
  | outOfRange : Fault
  deriving DecidableEq, Repr

/-- The private data members of `class TransactionManager`. -/
structure TransactionManager (σ : Type) : Type where
  mTimeLine : List (Transaction σ)
  mCurrent : Int

/-- A call either returns the manager and the world, or stops with a fault and the world so far. -/
abbrev Outcome (σ : Type) : Type := Except (Fault × World σ) (TransactionManager σ × World σ)

/-- A default-constructed manager: empty `mTimeLine`, `mCurrent = mTimeLine.end()`. -/
def TransactionManager.new (σ : Type) : TransactionManager σ :=
  { mTimeLine := [], mCurrent := 0 }

/-- The member `size()`: `mTimeLine.size()`. -/
def TransactionManager.size {σ : Type} (m : TransactionManager σ) : Nat :=
  m.mTimeLine.length

/-- The member `lastIndex()`: `mCurrent - mTimeLine.begin()`. -/
def TransactionManager.lastIndex {σ : Type} (m : TransactionManager σ) : Int :=
  m.mCurrent

/-- The test `mCurrent != mTimeLine.end()`. -/
def TransactionManager.notAtEnd {σ : Type} (m : TransactionManager σ) : Bool :=
  decide (m.mCurrent ≠ (m.mTimeLine.length : Int))

/-- The element `*it` for an iterator at offset `i`, when `i` is inside `[0, size())`. -/
def TransactionManager.deref {σ : Type} (m : TransactionManager σ) (i : Int) :
    Option (Transaction σ) :=
  if 0 ≤ i then m.mTimeLine[i.toNat]? else none

/-- The member `begin(what)`. -/
def TransactionManager.begin {σ : Type} (m : TransactionManager σ) (what : String)
    (w : World σ) : Outcome σ :=
  if m.notAtEnd then
    -- mTimeLine.erase(std::next(mCurrent), mTimeLine.end())
    if 0 ≤ m.mCurrent + 1 ∧ m.mCurrent + 1 ≤ (m.mTimeLine.length : Int) then
      let kept := m.mTimeLine.take (m.mCurrent + 1).toNat
      let tl := kept ++ [{ mWhat := what, mOperations := [] }]
      Except.ok ({ mTimeLine := tl, mCurrent := (tl.length : Int) - 1 }, w)
    else
      Except.error (Fault.outOfRange, w)
  else
    let tl := m.mTimeLine ++ [{ mWhat := what, mOperations := [] }]
    Except.ok ({ mTimeLine := tl, mCurrent := (tl.length : Int) - 1 }, w)

/-- The member `commit()`: empty body. -/
def TransactionManager.commit {σ : Type} (m : TransactionManager σ) (w : World σ) :
    Outcome σ :=
  Except.ok (m, w)

/-- The member `rollback()`. -/
def TransactionManager.rollback {σ : Type} (m : TransactionManager σ) (w : World σ) :
    Outcome σ :=
  if m.notAtEnd then
    match m.deref m.mCurrent with
    | some t =>
      let w1 := t.redo w
      Except.ok ({ mTimeLine := m.mTimeLine.dropLast, mCurrent := m.mCurrent }, w1)
    | none => Except.error (Fault.outOfRange, w)
  else
    Except.error (Fault.assertion, w)

/-- The member `storeAndExecute(do_f, undo_f)`.  When the assertion passes but `mCurrent`
is outside `[0, size())`, the body of `Transaction::storeAndExecute` still starts with
`redo_f()`, which does not touch the transaction; the out-of-range access is the
`mOperations.emplace_back` after it, so the call stops with `do_f` already invoked. -/
def TransactionManager.storeAndExecute {σ : Type} (m : TransactionManager σ)
    (do_f : redo_function_t σ) (undo_f : undo_function_t σ) (w : World σ) : Outcome σ :=
  if m.notAtEnd then
    match m.deref m.mCurrent with
    | some t =>
      let r := t.storeAndExecute do_f undo_f w
      Except.ok ({ mTimeLine := m.mTimeLine.set m.mCurrent.toNat r.1,
                   mCurrent := m.mCurrent }, r.2)
    | none => Except.error (Fault.outOfRange, w.invokeRedo do_f)
  else
    Except.error (Fault.assertion, w)

/-- The member `undo()`. -/
def TransactionManager.undo {σ : Type} (m : TransactionManager σ) (w : World σ) :
    Outcome σ :=
  if m.notAtEnd then
    match m.deref m.mCurrent with
    | some t =>
      let w1 := t.undo w
      Except.ok ({ mTimeLine := m.mTimeLine, mCurrent := m.mCurrent - 1 }, w1)
    | none => Except.error (Fault.outOfRange, w)
  else
    Except.error (Fault.assertion, w)

/-- The member `redo()`. -/
def TransactionManager.redo {σ : Type} (m : TransactionManager σ) (w : World σ) :
    Outcome σ :=
  if m.notAtEnd then
    let m1 : TransactionManager σ := { mTimeLine := m.mTimeLine, mCurrent := m.mCurrent + 1 }
    if m1.notAtEnd then
      match m1.deref m1.mCurrent with
      | some t => Except.ok (m1, t.redo w)
      | none => Except.error (Fault.outOfRange, w)
    else
      Except.error (Fault.assertion, w)
  else
    Except.error (Fault.assertion, w)

/-- A call of one public member that changes the manager. -/
inductive Cmd (σ : Type) : Type where
  | begin (what : String) : Cmd σ
  | storeAndExecute (do_f : redo_function_t σ) (undo_f : undo_function_t σ) : Cmd σ
  | commit : Cmd σ
  | rollback : Cmd σ
  | undo : Cmd σ
  | redo : Cmd σ

/-- Perform one call. -/
def Cmd.exec {σ : Type} (c : Cmd σ) (mw : TransactionManager σ × World σ) : Outcome σ :=
  match c with
  | Cmd.begin what => mw.1.begin what mw.2
  | Cmd.storeAndExecute do_f undo_f => mw.1.storeAndExecute do_f undo_f mw.2
  | Cmd.commit => mw.1.commit mw.2
  | Cmd.rollback => mw.1.rollback mw.2
  | Cmd.undo => mw.1.undo mw.2
  | Cmd.redo => mw.1.redo mw.2

/-- Perform a sequence of calls, left to right, stopping at the first fault. -/
def runCmds {σ : Type} : List (Cmd σ) → TransactionManager σ × World σ → Outcome σ
  | [], mw => Except.ok mw
  | c :: cs, mw =>
    match c.exec mw with
    | Except.ok mw1 => runCmds cs mw1
    | Except.error e => Except.error e

/-- The `struct item` of the tests. -/
structure item : Type where
  a : String
  b : String
  deriving DecidableEq, Repr

/-- The lambda `[&data, v]() { data.a = v; }` used for both callbacks in the tests. -/
def assignA (v : String) : item → item :=
  fun d => { a := v, b := d.b }

/-- The recording pattern of the tests for one transaction with one operation:
`begin(what); storeAndExecute(assign new_value, assign the current data.a); commit();`. -/
def recordOne (what new_value : String) (mw : TransactionManager item × World item) :
    Outcome item :=
  match mw.1.begin what mw.2 with
  | Except.ok mw1 =>
    match mw1.1.storeAndExecute (assignA new_value) (assignA mw1.2.data.a) mw1.2 with
    | Except.ok mw2 => mw2.1.commit mw2.2
    | Except.error e => Except.error e
  | Except.error e => Except.error e

/-- Record one single-operation transaction per `(label, new value)` entry, in order. -/
def recordAll : List (String × String) → TransactionManager item × World item → Outcome item
  | [], mw => Except.ok mw
  | x :: xs, mw =>
    match recordOne x.1 x.2 mw with
    | Except.ok mw1 => recordAll xs mw1
    | Except.error e => Except.error e

/-- Call `undo()` `k` times. -/
def undoTimes {σ : Type} : Nat → TransactionManager σ × World σ → Outcome σ
  | 0, mw => Except.ok mw
  | k + 1, mw =>
    match mw.1.undo mw.2 with
    | Except.ok mw1 => undoTimes k mw1
    | Except.error e => Except.error e

/-- Call `redo()` `j` times. -/
def redoTimes {σ : Type} : Nat → TransactionManager σ × World σ → Outcome σ
  | 0, mw => Except.ok mw
  | j + 1, mw =>
    match mw.1.redo mw.2 with
    | Except.ok mw1 => redoTimes j mw1
    | Except.error e => Except.error e

/-- The value `v_i` of a recording that starts at `v0`: `v_0 = v0`, and `v_i` is the
new value of the `i`-th entry. -/
def valueAt (v0 : String) (xs : List (String × String)) (i : Nat) : String :=
  ((v0 :: xs.map Prod.snd)[i]?).getD v0

/-- The timeline that `recordAll xs` builds when the datum starts at `v0`: one
transaction per entry, holding the single operation `(assign v_i, assign v_(i-1))`. -/
def snapTimeline : String → List (String × String) → List (Transaction item)
  | _, [] => []
  | v0, x :: xs =>
    { mWhat := x.1, mOperations := [(assignA x.2, assignA v0)] } :: snapTimeline x.2 xs

/-- Every operation of the transaction is a pair of mutually inverse functions on the
caller's data. -/
def Transaction.inversePairs {σ : Type} (t : Transaction σ) : Prop :=
  ∀ op ∈ t.mOperations, (∀ d : σ, op.1 (op.2 d) = d) ∧ (∀ d : σ, op.2 (op.1 d) = d)

/-- The world at the point where a call, or a sequence of calls, returned or stopped. -/
def worldOf {σ : Type} (o : Outcome σ) : World σ :=
  match o with
  | Except.ok s => s.2
  | Except.error e => e.2

/-- Every invocation that a transaction can give rise to: the redo slot or the undo slot
of one of its operations. -/
def Transaction.callbacks {σ : Type} (t : Transaction σ) : List (Call σ) :=
  t.mOperations.map (fun op => Call.redo op.1) ++ t.mOperations.map (fun op => Call.undo op.2)

/-- The sequence holds only `undo()` and `redo()` calls. -/
def navigationOnly {σ : Type} (cmds : List (Cmd σ)) : Prop :=
  ∀ c ∈ cmds, c = Cmd.undo ∨ c = Cmd.redo

/-- The log grew by invocations that all belong to transactions of `tl`. -/
def grewWithin {σ : Type} (tl : List (Transaction σ)) (w w1 : World σ) : Prop :=
  ∃ extra : List (Call σ), w1.calls = w.calls ++ extra ∧
    ∀ e ∈ extra, ∃ t ∈ tl, e ∈ t.callbacks

/-- The calls of one group: `begin(label)`, one `storeAndExecute` per callback pair, in
order, then `commit()`. -/
def groupCmds {σ : Type} (g : String × List (operation σ)) : List (Cmd σ) :=
  Cmd.begin g.1 :: (g.2.map (fun op => Cmd.storeAndExecute op.1 op.2) ++ [Cmd.commit])

/-- The calls of a sequence of groups, one group after the other. -/
def groupsCmds {σ : Type} : List (String × List (operation σ)) → List (Cmd σ)
  | [] => []
  | g :: gs => groupCmds g ++ groupsCmds gs

/-- The cursor offset lies between one-before-`begin()` and `end()`. -/
def cursorInRange {σ : Type} (m : TransactionManager σ) : Prop :=
  -1 ≤ m.mCurrent ∧ m.mCurrent ≤ (m.mTimeLine.length : Int)

/-- The initial data of every test: `item data{"Hello", "Other"}`, nothing invoked yet. -/
def helloWorld : World item :=
  { data := { a := "Hello", b := "Other" }, calls := [] }

/-- The two recordings of "Undo redo test 3", as `(label, new value)` entries. -/
def testEntries : List (String × String) :=
  [("Add string", "Hello World"), ("Add another string", "Hello World!")]

/-- One transaction recorded by two `storeAndExecute` calls in the style of the tests: the
second operation builds on the first (`"Hello" → "Hello World" → "Hello World!"`), and each
undo callback assigns the value the datum held when its operation was recorded. -/
def twoStepRecording : List (Cmd item) :=
  [Cmd.begin "Add two strings",
   Cmd.storeAndExecute (assignA "Hello World") (assignA "Hello"),
   Cmd.storeAndExecute (assignA "Hello World!") (assignA "Hello World"),
   Cmd.commit]

/-- The calls of "Undo redo test 2": one committed transaction, then `undo()`. -/
def recordThenUndo : List (Cmd item) :=
  [Cmd.begin "Add string",
   Cmd.storeAndExecute (assignA "Hello World") (assignA "Hello"),
   Cmd.commit,
   Cmd.undo]

/-- A transaction over an integer datum whose two operations are inverse pairs. -/
def shiftTx : Transaction Int :=
  { mWhat := "shift", mOperations := [(fun d => d + 1, fun d => d - 1), (fun d => d + 5, fun d => d - 5)] }

/-- The manager of "Undo redo test 4" just before its third `begin`: two committed
transactions, the second one undone. -/
def afterOneUndo : TransactionManager item :=
  { mTimeLine := snapTimeline "Hello" testEntries, mCurrent := 0 }

/-- A manager whose only transaction is `shiftTx`, with the cursor on it. -/
def shiftApplied : TransactionManager Int :=
  { mTimeLine := [shiftTx], mCurrent := 0 }

/-- A manager whose only transaction is `shiftTx`, with the cursor before it. -/
def shiftUndone : TransactionManager Int :=
  { mTimeLine := [shiftTx], mCurrent := -1 }

/-- Two groups: one with a single callback pair, one with none. -/
def testGroups : List (String × List (operation item)) :=
  [("Add string", [(assignA "Hello World", assignA "Hello")]), ("Empty", [])]

/-- The state that `recordThenUndo` reaches from a new manager and `helloWorld`. -/
def undoneState : TransactionManager item × World item :=
  ({ mTimeLine := [{ mWhat := "Add string",
                     mOperations := [(assignA "Hello World", assignA "Hello")] }],
     mCurrent := -1 },
   { data := { a := "Hello", b := "Other" },
     calls := [Call.redo (assignA "Hello World"), Call.undo (assignA "Hello")] })

/-- The state after "Undo redo test 1": one committed transaction with one operation. -/
def committedState : TransactionManager item × World item :=
  ({ mTimeLine := [{ mWhat := "Add string",
                     mOperations := [(assignA "Hello World", assignA "Hello")] }],
     mCurrent := 0 },
   { data := { a := "Hello World", b := "Other" },
     calls := [Call.redo (assignA "Hello World")] })

/-- The call is a `begin`. -/
def Cmd.isBegin {σ : Type} : Cmd σ → Bool
  | Cmd.begin _ => true
  | _ => false

/-- The call is a `rollback`. -/
def Cmd.isRollback {σ : Type} : Cmd σ → Bool
  | Cmd.rollback => true
  | _ => false

/-- The cursor offset is `-1` or a valid index: `-1 ≤ lastIndex() ≤ size() - 1`. -/
def cursorBeforeEnd {σ : Type} (m : TransactionManager σ) : Prop :=
  -1 ≤ m.mCurrent ∧ m.mCurrent ≤ (m.mTimeLine.length : Int) - 1

/-- Two empty transactions are begun and the second one is rolled back. -/
def beginBeginRollback : List (Cmd item) :=
  [Cmd.begin "First", Cmd.begin "Second", Cmd.rollback]

/-- A third transaction is begun and then undone. -/
def beginUndo : List (Cmd item) :=
  [Cmd.begin "Third", Cmd.undo]

/-- The state that `beginBeginRollback ++ beginUndo` reaches from a new manager. -/
def thirdUndoneState : TransactionManager item × World item :=
  ({ mTimeLine := [{ mWhat := "First", mOperations := [] },
                   { mWhat := "Third", mOperations := [] }],
     mCurrent := 0 }, helloWorld)

/-- The first transaction of "Undo redo test 3". -/
def firstTx : Transaction item :=
  { mWhat := "Add string", mOperations := [(assignA "Hello World", assignA "Hello")] }

/-- The second transaction of "Undo redo test 3". -/
def secondTx : Transaction item :=
  { mWhat := "Add another string",
    mOperations := [(assignA "Hello World!", assignA "Hello World")] }

/-- The manager of "Undo redo test 3" after its two commits: cursor on the last entry. -/
def afterTwoCommits : TransactionManager item :=
  { mTimeLine := [firstTx, secondTx], mCurrent := 1 }

/-- The calls of "Undo redo test 4" up to its first `undo()`: two committed transactions,
then one `undo()`, which leaves the cursor on the first of the two. -/
def twoCommitsThenUndo : List (Cmd item) :=
  [Cmd.begin "Add string",
   Cmd.storeAndExecute (assignA "Hello World") (assignA "Hello"),
   Cmd.commit,
   Cmd.begin "Add another string",
   Cmd.storeAndExecute (assignA "Hello World!") (assignA "Hello World"),
   Cmd.commit,
   Cmd.undo]

/-! ## General facts about lists and about single calls -/

theorem snapTimeline_length (v0 : String) (xs : List (String × String)) :
    (snapTimeline v0 xs).length = xs.length := by
  induction xs generalizing v0 with
  | nil => rfl
  | cons x xs ih => simp [snapTimeline, ih]

theorem valueAt_zero (v0 : String) (xs : List (String × String)) : valueAt v0 xs 0 = v0 := by
  simp [valueAt]

theorem valueAt_succ (v0 : String) (x : String × String) (xs : List (String × String))
    (i : Nat) (hi : i ≤ xs.length) : valueAt v0 (x :: xs) (i + 1) = valueAt x.2 xs i := by
  unfold valueAt
  have h1 : i < (x.2 :: xs.map Prod.snd).length := by simp; omega
  simp only [List.map_cons, List.getElem?_cons_succ]
  rw [List.getElem?_eq_getElem h1]
  simp

theorem snapTimeline_getElem (v0 : String) (xs : List (String × String)) (p : Nat)
    (hp : p < xs.length) :
    ∃ what, (snapTimeline v0 xs)[p]? =
      some { mWhat := what,
             mOperations := [(assignA (valueAt v0 xs (p + 1)), assignA (valueAt v0 xs p))] } := by
  induction xs generalizing v0 p with
  | nil => simp at hp
  | cons x xs ih =>
    cases p with
    | zero =>
      refine ⟨x.1, ?_⟩
      simp [snapTimeline, valueAt]
    | succ q =>
      have hq : q < xs.length := by simpa using hp
      obtain ⟨what, hw⟩ := ih x.2 q hq
      refine ⟨what, ?_⟩
      rw [valueAt_succ v0 x xs (q + 1) (by omega), valueAt_succ v0 x xs q (by omega)]
      simpa [snapTimeline] using hw


theorem getElem?_lt {α : Type} (l : List α) (i : Nat) (t : α) (h : l[i]? = some t) :
    i < l.length := by
  by_contra hc
  rw [List.getElem?_eq_none (by omega)] at h
  cases h

theorem undo_of_getElem {σ : Type} (m : TransactionManager σ) (w : World σ) (i : Nat)
    (t : Transaction σ) (hc : m.mCurrent = (i : Int)) (ht : m.mTimeLine[i]? = some t) :
    m.undo w = Except.ok ({ mTimeLine := m.mTimeLine, mCurrent := (i : Int) - 1 }, t.undo w) := by
  have hlt := getElem?_lt _ _ _ ht
  have hne : (i : Int) ≠ (m.mTimeLine.length : Int) := by omega
  simp [TransactionManager.undo, TransactionManager.notAtEnd, TransactionManager.deref, hc, hne, ht]

theorem redo_of_getElem {σ : Type} (m : TransactionManager σ) (w : World σ) (i : Nat)
    (t : Transaction σ) (hc : m.mCurrent + 1 = (i : Int)) (ht : m.mTimeLine[i]? = some t) :
    m.redo w = Except.ok ({ mTimeLine := m.mTimeLine, mCurrent := (i : Int) }, t.redo w) := by
  have hlt := getElem?_lt _ _ _ ht
  have hne : (i : Int) ≠ (m.mTimeLine.length : Int) := by omega
  have hne2 : m.mCurrent ≠ (m.mTimeLine.length : Int) := by omega
  simp [TransactionManager.redo, TransactionManager.notAtEnd, TransactionManager.deref, hc, hne,
    hne2, ht]

theorem undo_snap (v0 : String) (xs : List (String × String)) (p : Nat) (hp : p < xs.length)
    (w : World item) :
    ∃ w1, TransactionManager.undo { mTimeLine := snapTimeline v0 xs, mCurrent := (p : Int) } w
        = Except.ok ({ mTimeLine := snapTimeline v0 xs, mCurrent := (p : Int) - 1 }, w1)
      ∧ w1.data = { a := valueAt v0 xs p, b := w.data.b } := by
  obtain ⟨what, hw⟩ := snapTimeline_getElem v0 xs p hp
  refine ⟨_, undo_of_getElem _ w p _ rfl hw, ?_⟩
  simp [Transaction.undo, World.invokeUndo, assignA]

theorem redo_snap (v0 : String) (xs : List (String × String)) (p : Nat) (hp : p < xs.length)
    (w : World item) :
    ∃ w1, TransactionManager.redo { mTimeLine := snapTimeline v0 xs, mCurrent := (p : Int) - 1 } w
        = Except.ok ({ mTimeLine := snapTimeline v0 xs, mCurrent := (p : Int) }, w1)
      ∧ w1.data = { a := valueAt v0 xs (p + 1), b := w.data.b } := by
  obtain ⟨what, hw⟩ := snapTimeline_getElem v0 xs p hp
  refine ⟨_, redo_of_getElem _ w p _ (by simp) hw, ?_⟩
  simp [Transaction.redo, World.invokeRedo, assignA]

theorem undoTimes_snap (v0 : String) (xs : List (String × String)) (k : Nat) :
    ∀ (p : Nat) (w : World item), p ≤ xs.length → k ≤ p →
      w.data.a = valueAt v0 xs p →
    ∃ w1, undoTimes k ({ mTimeLine := snapTimeline v0 xs, mCurrent := (p : Int) - 1 }, w)
        = Except.ok ({ mTimeLine := snapTimeline v0 xs, mCurrent := ((p - k : Nat) : Int) - 1 }, w1)
      ∧ w1.data = { a := valueAt v0 xs (p - k), b := w.data.b } := by
  induction k with
  | zero =>
    intro p w _ _ ha
    refine ⟨w, rfl, ?_⟩
    cases w with
    | mk d c => cases d; simp at ha; simp [ha]
  | succ k ih =>
    intro p w hp hk ha
    obtain ⟨q, rfl⟩ : ∃ q, p = q + 1 := ⟨p - 1, by omega⟩
    obtain ⟨w1, h1, hd1⟩ := undo_snap v0 xs q (by omega) w
    obtain ⟨w2, h2, hd2⟩ := ih q w1 (by omega) (by omega) (by rw [hd1])
    refine ⟨w2, ?_, ?_⟩
    · have e : ((q + 1 : Nat) : Int) - 1 = (q : Int) := by push_cast; ring
      have e2 : q + 1 - (k + 1) = q - k := by omega
      simp only [undoTimes, e, h1, e2]
      exact h2
    · have e2 : q + 1 - (k + 1) = q - k := by omega
      rw [hd2, hd1, e2]

theorem redoTimes_snap (v0 : String) (xs : List (String × String)) (j : Nat) :
    ∀ (p : Nat) (w : World item), p + j ≤ xs.length →
      w.data.a = valueAt v0 xs p →
    ∃ w1, redoTimes j ({ mTimeLine := snapTimeline v0 xs, mCurrent := (p : Int) - 1 }, w)
        = Except.ok ({ mTimeLine := snapTimeline v0 xs, mCurrent := ((p + j : Nat) : Int) - 1 }, w1)
      ∧ w1.data = { a := valueAt v0 xs (p + j), b := w.data.b } := by
  induction j with
  | zero =>
    intro p w _ ha
    refine ⟨w, rfl, ?_⟩
    cases w with
    | mk d c => cases d; simp at ha; simp [ha]
  | succ j ih =>
    intro p w hp ha
    obtain ⟨w1, h1, hd1⟩ := redo_snap v0 xs p (by omega) w
    obtain ⟨w2, h2, hd2⟩ := ih (p + 1) w1 (by omega) (by rw [hd1])
    refine ⟨w2, ?_, ?_⟩
    · have e : ((p + 1 : Nat) : Int) - 1 = (p : Int) := by push_cast; ring
      have e2 : p + 1 + j = p + (j + 1) := by omega
      rw [e, e2] at h2
      simp only [redoTimes, h1]
      exact h2
    · have e2 : p + 1 + j = p + (j + 1) := by omega
      rw [hd2, hd1, e2]


theorem begin_at_end {σ : Type} (m : TransactionManager σ) (what : String) (w : World σ)
    (hc : m.mCurrent = (m.mTimeLine.length : Int)) :
    m.begin what w = Except.ok
      ({ mTimeLine := m.mTimeLine ++ [{ mWhat := what, mOperations := [] }],
         mCurrent := (m.mTimeLine.length : Int) }, w) := by
  simp [TransactionManager.begin, TransactionManager.notAtEnd, hc]

theorem begin_of_valid {σ : Type} (m : TransactionManager σ) (what : String) (w : World σ)
    (c : Nat) (hc : m.mCurrent + 1 = (c : Int)) (hlen : c ≤ m.mTimeLine.length) :
    m.begin what w = Except.ok
      ({ mTimeLine := m.mTimeLine.take c ++ [{ mWhat := what, mOperations := [] }],
         mCurrent := (c : Int) }, w) := by
  have hne : m.mCurrent ≠ (m.mTimeLine.length : Int) := by omega
  have h2 : (0 : Int) ≤ m.mCurrent + 1 ∧ m.mCurrent + 1 ≤ (m.mTimeLine.length : Int) := by omega
  have h3 : min c m.mTimeLine.length = c := by omega
  simp [TransactionManager.begin, TransactionManager.notAtEnd, hne, hc, hlen, h3]

theorem storeAndExecute_of_getElem {σ : Type} (m : TransactionManager σ)
    (do_f : redo_function_t σ) (undo_f : undo_function_t σ) (w : World σ) (i : Nat)
    (t : Transaction σ) (hc : m.mCurrent = (i : Int)) (ht : m.mTimeLine[i]? = some t) :
    m.storeAndExecute do_f undo_f w = Except.ok
      ({ mTimeLine := m.mTimeLine.set i
            { mWhat := t.mWhat, mOperations := t.mOperations ++ [(do_f, undo_f)] },
         mCurrent := (i : Int) }, w.invokeRedo do_f) := by
  have hlt := getElem?_lt _ _ _ ht
  have hne : (i : Int) ≠ (m.mTimeLine.length : Int) := by omega
  simp [TransactionManager.storeAndExecute, TransactionManager.notAtEnd,
    TransactionManager.deref, hc, hne, ht, Transaction.storeAndExecute]

theorem recordOne_spec (what v : String) (m : TransactionManager item) (w : World item)
    (hc : m.mCurrent = (m.mTimeLine.length : Int) ∨ m.mCurrent + 1 = (m.mTimeLine.length : Int)) :
    ∃ w1, recordOne what v (m, w) = Except.ok
        ({ mTimeLine := m.mTimeLine ++
              [{ mWhat := what, mOperations := [(assignA v, assignA w.data.a)] }],
           mCurrent := (m.mTimeLine.length : Int) }, w1)
      ∧ w1.data = { a := v, b := w.data.b } := by
  have hb : m.begin what w = Except.ok
      ({ mTimeLine := m.mTimeLine ++ [{ mWhat := what, mOperations := [] }],
         mCurrent := (m.mTimeLine.length : Int) }, w) := by
    rcases hc with hc | hc
    · exact begin_at_end m what w hc
    · have := begin_of_valid m what w m.mTimeLine.length hc (le_refl _)
      simpa using this
  have hs := storeAndExecute_of_getElem
    { mTimeLine := m.mTimeLine ++ [{ mWhat := what, mOperations := [] }],
      mCurrent := (m.mTimeLine.length : Int) } (assignA v) (assignA w.data.a) w
    m.mTimeLine.length { mWhat := what, mOperations := [] } rfl (by simp)
  refine ⟨w.invokeRedo (assignA v), ?_, ?_⟩
  · simp only [recordOne, hb, hs, TransactionManager.commit]
    simp
  · simp [World.invokeRedo, assignA]

theorem recordAll_spec (xs : List (String × String)) :
    ∀ (x : String × String) (m : TransactionManager item) (w : World item),
      (m.mCurrent = (m.mTimeLine.length : Int) ∨ m.mCurrent + 1 = (m.mTimeLine.length : Int)) →
    ∃ w1, recordAll (x :: xs) (m, w) = Except.ok
        ({ mTimeLine := m.mTimeLine ++ snapTimeline w.data.a (x :: xs),
           mCurrent := ((m.mTimeLine.length + (x :: xs).length : Nat) : Int) - 1 }, w1)
      ∧ w1.data = { a := valueAt w.data.a (x :: xs) (x :: xs).length, b := w.data.b } := by
  induction xs with
  | nil =>
    intro x m w hc
    obtain ⟨w1, h1, hd1⟩ := recordOne_spec x.1 x.2 m w hc
    refine ⟨w1, ?_, ?_⟩
    · simp only [recordAll, h1, snapTimeline]
      simp
    · simp [hd1, valueAt]
  | cons y ys ih =>
    intro x m w hc
    obtain ⟨w1, h1, hd1⟩ := recordOne_spec x.1 x.2 m w hc
    obtain ⟨w2, h2, hd2⟩ := ih y
      { mTimeLine := m.mTimeLine ++
              [{ mWhat := x.1, mOperations := [(assignA x.2, assignA w.data.a)] }],
        mCurrent := (m.mTimeLine.length : Int) } w1 (by right; simp)
    refine ⟨w2, ?_, ?_⟩
    · rw [recordAll]
      simp only [h1]
      rw [h2]
      simp [snapTimeline, hd1]
      omega
    · rw [hd2, hd1]
      simp only [List.length_cons]
      rw [valueAt_succ w.data.a x (y :: ys) (ys.length + 1) (by simp)]


/-- C1 (history navigation).  Start from a new manager and a datum `a = v0`, `b = b0`,
and record `n ≥ 1` single-operation transactions in the style of the tests, the `i`-th
assigning `v_i` on redo and the value held at recording time, `v_(i-1)`, on undo.  Then the
recording succeeds; for every `k ≤ n`, `k` calls of `undo()` succeed and leave `a = v_(n-k)`,
`lastIndex() = n-k-1`, `size() = n`; for every `j ≤ k`, `j` further calls of `redo()` succeed
and leave `a = v_(n-k+j)`, `lastIndex() = n-k+j-1`; the field `b`, which no callback touches,
keeps its value `b0` throughout. -/
theorem history_navigation (v0 b0 : String) (calls0 : List (Call item))
    (xs : List (String × String)) (k j : Nat)
    (hn : 1 ≤ xs.length) (hk : k ≤ xs.length) (hj : j ≤ k) :
    ∃ s1 s2 s3 : TransactionManager item × World item,
      recordAll xs (TransactionManager.new item, { data := { a := v0, b := b0 }, calls := calls0 })
          = Except.ok s1
        ∧ s1.2.data = { a := valueAt v0 xs xs.length, b := b0 }
        ∧ undoTimes k s1 = Except.ok s2
        ∧ s2.2.data = { a := valueAt v0 xs (xs.length - k), b := b0 }
        ∧ s2.1.lastIndex = (xs.length : Int) - (k : Int) - 1
        ∧ s2.1.size = xs.length
        ∧ redoTimes j s2 = Except.ok s3
        ∧ s3.2.data = { a := valueAt v0 xs (xs.length - k + j), b := b0 }
        ∧ s3.1.lastIndex = (xs.length : Int) - (k : Int) + (j : Int) - 1
        ∧ s3.1.size = xs.length := by
  cases xs with
  | nil => simp at hn
  | cons x xs =>
    obtain ⟨w1, h1, hd1⟩ := recordAll_spec xs x (TransactionManager.new item)
      { data := { a := v0, b := b0 }, calls := calls0 } (Or.inl rfl)
    simp only [TransactionManager.new, List.nil_append, List.length_nil, Nat.zero_add] at h1
    obtain ⟨w2, h2, hd2⟩ := undoTimes_snap v0 (x :: xs) k (x :: xs).length w1 (le_refl _) hk
      (by rw [hd1])
    obtain ⟨w3, h3, hd3⟩ := redoTimes_snap v0 (x :: xs) j ((x :: xs).length - k) w2 (by omega)
      (by rw [hd2])
    refine ⟨_, _, _, h1, hd1, h2, ?_, ?_, ?_, h3, ?_, ?_, ?_⟩
    · rw [hd2, hd1]
    · simp only [TransactionManager.lastIndex]; omega
    · simp [TransactionManager.size, snapTimeline_length]
    · rw [hd3, hd2, hd1]
    · simp only [TransactionManager.lastIndex]; omega
    · simp [TransactionManager.size, snapTimeline_length]

theorem deref_eq_some {σ : Type} (m : TransactionManager σ) (i : Int) (t : Transaction σ)
    (h : m.deref i = some t) : ∃ n : Nat, i = (n : Int) ∧ m.mTimeLine[n]? = some t := by
  unfold TransactionManager.deref at h
  by_cases h0 : 0 ≤ i
  · rw [if_pos h0] at h
    exact ⟨i.toNat, (Int.toNat_of_nonneg h0).symm, h⟩
  · rw [if_neg h0] at h
    cases h

theorem deref_natCast {σ : Type} (m : TransactionManager σ) (n : Nat) :
    m.deref (n : Int) = m.mTimeLine[n]? := by
  simp [TransactionManager.deref]

theorem undo_data {σ : Type} (t : Transaction σ) (w : World σ) :
    (t.undo w).data = t.mOperations.foldl (fun d op => op.2 d) w.data := by
  unfold Transaction.undo
  generalize t.mOperations = ops
  induction ops generalizing w with
  | nil => rfl
  | cons op ops ih =>
    simp only [List.foldl_cons]
    rw [ih]
    rfl

theorem redo_data {σ : Type} (t : Transaction σ) (w : World σ) :
    (t.redo w).data = t.mOperations.foldr (fun op d => op.1 d) w.data := by
  unfold Transaction.redo
  rw [← List.foldl_reverse]
  generalize t.mOperations.reverse = ops
  induction ops generalizing w with
  | nil => rfl
  | cons op ops ih =>
    simp only [List.foldl_cons]
    rw [ih]
    rfl

theorem redo_after_undo_data {σ : Type} (ops : List (operation σ))
    (h : ∀ op ∈ ops, (∀ d : σ, op.1 (op.2 d) = d) ∧ (∀ d : σ, op.2 (op.1 d) = d)) (d : σ) :
    ops.foldr (fun op d => op.1 d) (ops.foldl (fun d op => op.2 d) d) = d := by
  induction ops generalizing d with
  | nil => rfl
  | cons op ops ih =>
    simp only [List.foldl_cons, List.foldr_cons]
    rw [ih (fun o ho => h o (List.mem_cons_of_mem _ ho))]
    exact (h op (List.mem_cons_self _ _)).1 d

theorem undo_after_redo_data {σ : Type} (ops : List (operation σ))
    (h : ∀ op ∈ ops, (∀ d : σ, op.1 (op.2 d) = d) ∧ (∀ d : σ, op.2 (op.1 d) = d)) (d : σ) :
    ops.foldl (fun d op => op.2 d) (ops.foldr (fun op d => op.1 d) d) = d := by
  induction ops generalizing d with
  | nil => rfl
  | cons op ops ih =>
    simp only [List.foldl_cons, List.foldr_cons]
    rw [(h op (List.mem_cons_self _ _)).2]
    exact ih (fun o ho => h o (List.mem_cons_of_mem _ ho)) d

/-- C2 (undo/redo round trip).  If the cursor references a transaction `t` of the timeline
and every operation of `t` is a pair of mutually inverse functions on the caller's data, then
`undo()` followed by `redo()` both succeed and leave the caller's data, the cursor and the
timeline as they were.  If instead the transaction right after the cursor is such a `t`, then
`redo()` followed by `undo()` both succeed and do the same. -/
theorem undo_redo_round_trip {σ : Type} (m : TransactionManager σ) (w : World σ) :
    (∀ t : Transaction σ, m.deref m.mCurrent = some t → t.inversePairs →
      ∃ s1 s2 : TransactionManager σ × World σ,
        m.undo w = Except.ok s1 ∧ s1.1.redo s1.2 = Except.ok s2 ∧
        s2.2.data = w.data ∧ s2.1.mCurrent = m.mCurrent ∧ s2.1.mTimeLine = m.mTimeLine)
    ∧
    (∀ t : Transaction σ, m.deref (m.mCurrent + 1) = some t → t.inversePairs →
      ∃ s1 s2 : TransactionManager σ × World σ,
        m.redo w = Except.ok s1 ∧ s1.1.undo s1.2 = Except.ok s2 ∧
        s2.2.data = w.data ∧ s2.1.mCurrent = m.mCurrent ∧ s2.1.mTimeLine = m.mTimeLine) := by
  constructor
  · intro t ht hinv
    obtain ⟨n, hn, hget⟩ := deref_eq_some m _ t ht
    have h1 := undo_of_getElem m w n t hn hget
    have h2 := redo_of_getElem { mTimeLine := m.mTimeLine, mCurrent := (n : Int) - 1 }
      (t.undo w) n t (by simp) hget
    refine ⟨_, _, h1, h2, ?_, ?_, rfl⟩
    · show (t.redo (t.undo w)).data = w.data
      rw [redo_data, undo_data]
      exact redo_after_undo_data t.mOperations hinv w.data
    · exact hn.symm
  · intro t ht hinv
    obtain ⟨n, hn, hget⟩ := deref_eq_some m _ t ht
    have h1 := redo_of_getElem m w n t hn hget
    have h2 := undo_of_getElem { mTimeLine := m.mTimeLine, mCurrent := (n : Int) }
      (t.redo w) n t rfl hget
    refine ⟨_, _, h1, h2, ?_, ?_, rfl⟩
    · show (t.undo (t.redo w)).data = w.data
      rw [undo_data, redo_data]
      exact undo_after_redo_data t.mOperations hinv w.data
    · show (n : Int) - 1 = m.mCurrent
      omega

theorem undo_calls {σ : Type} (t : Transaction σ) (w : World σ) :
    (t.undo w).calls = w.calls ++ t.mOperations.map (fun op => Call.undo op.2) := by
  unfold Transaction.undo
  generalize t.mOperations = ops
  induction ops generalizing w with
  | nil => simp
  | cons op ops ih =>
    simp only [List.foldl_cons, List.map_cons]
    rw [ih]
    simp [World.invokeUndo]

theorem redo_calls {σ : Type} (t : Transaction σ) (w : World σ) :
    (t.redo w).calls = w.calls ++ t.mOperations.reverse.map (fun op => Call.redo op.1) := by
  unfold Transaction.redo
  generalize t.mOperations.reverse = ops
  induction ops generalizing w with
  | nil => simp
  | cons op ops ih =>
    simp only [List.foldl_cons, List.map_cons]
    rw [ih]
    simp [World.invokeRedo]

theorem grewWithin_refl {σ : Type} (tl : List (Transaction σ)) (w : World σ) :
    grewWithin tl w w :=
  ⟨[], by simp, by simp⟩

theorem grewWithin_trans {σ : Type} (tl : List (Transaction σ)) (w w1 w2 : World σ)
    (h1 : grewWithin tl w w1) (h2 : grewWithin tl w1 w2) : grewWithin tl w w2 := by
  obtain ⟨e1, hc1, hm1⟩ := h1
  obtain ⟨e2, hc2, hm2⟩ := h2
  refine ⟨e1 ++ e2, by rw [hc2, hc1, List.append_assoc], ?_⟩
  intro e he
  rcases List.mem_append.mp he with h | h
  · exact hm1 e h
  · exact hm2 e h

theorem undo_cases {σ : Type} (m : TransactionManager σ) (w : World σ) :
    (∃ t ∈ m.mTimeLine, m.undo w =
        Except.ok ({ mTimeLine := m.mTimeLine, mCurrent := m.mCurrent - 1 }, t.undo w))
    ∨ (∃ f, m.undo w = Except.error (f, w)) := by
  unfold TransactionManager.undo
  by_cases h : m.notAtEnd = true
  · rw [if_pos h]
    cases hd : m.deref m.mCurrent with
    | none => exact Or.inr ⟨_, rfl⟩
    | some t =>
      obtain ⟨n, _, hget⟩ := deref_eq_some m _ t hd
      exact Or.inl ⟨t, List.getElem?_mem hget, rfl⟩
  · rw [if_neg h]
    exact Or.inr ⟨_, rfl⟩

theorem redo_cases {σ : Type} (m : TransactionManager σ) (w : World σ) :
    (∃ t ∈ m.mTimeLine, m.redo w =
        Except.ok ({ mTimeLine := m.mTimeLine, mCurrent := m.mCurrent + 1 }, t.redo w))
    ∨ (∃ f, m.redo w = Except.error (f, w)) := by
  unfold TransactionManager.redo
  by_cases h : m.notAtEnd = true
  · rw [if_pos h]
    simp only
    by_cases h2 : TransactionManager.notAtEnd
        { mTimeLine := m.mTimeLine, mCurrent := m.mCurrent + 1 } = true
    · rw [if_pos h2]
      cases hd : TransactionManager.deref
          { mTimeLine := m.mTimeLine, mCurrent := m.mCurrent + 1 } (m.mCurrent + 1) with
      | none => exact Or.inr ⟨_, rfl⟩
      | some t =>
        obtain ⟨n, _, hget⟩ := deref_eq_some _ _ t hd
        exact Or.inl ⟨t, List.getElem?_mem hget, rfl⟩
    · rw [if_neg h2]
      exact Or.inr ⟨_, rfl⟩
  · rw [if_neg h]
    exact Or.inr ⟨_, rfl⟩

theorem undo_grewWithin {σ : Type} (t : Transaction σ) (tl : List (Transaction σ))
    (ht : t ∈ tl) (w : World σ) : grewWithin tl w (t.undo w) := by
  refine ⟨_, undo_calls t w, ?_⟩
  intro e he
  exact ⟨t, ht, List.mem_append_right _ he⟩

theorem redo_grewWithin {σ : Type} (t : Transaction σ) (tl : List (Transaction σ))
    (ht : t ∈ tl) (w : World σ) : grewWithin tl w (t.redo w) := by
  refine ⟨_, redo_calls t w, ?_⟩
  intro e he
  refine ⟨t, ht, List.mem_append_left _ ?_⟩
  simpa using he

theorem navigation_grewWithin {σ : Type} (cmds : List (Cmd σ)) :
    ∀ (m : TransactionManager σ) (w : World σ), navigationOnly cmds →
      grewWithin m.mTimeLine w (worldOf (runCmds cmds (m, w))) := by
  induction cmds with
  | nil => intro m w _; exact grewWithin_refl _ _
  | cons c cs ih =>
    intro m w hnav
    have hcs : navigationOnly cs := fun x hx => hnav x (List.mem_cons_of_mem _ hx)
    rcases hnav c (List.mem_cons_self _ _) with rfl | rfl
    · rcases undo_cases m w with ⟨t, ht, h⟩ | ⟨f, h⟩
      · simp only [runCmds, Cmd.exec, h]
        exact grewWithin_trans _ _ _ _ (undo_grewWithin t _ ht w) (ih _ _ hcs)
      · simp only [runCmds, Cmd.exec, h]
        exact grewWithin_refl _ _
    · rcases redo_cases m w with ⟨t, ht, h⟩ | ⟨f, h⟩
      · simp only [runCmds, Cmd.exec, h]
        exact grewWithin_trans _ _ _ _ (redo_grewWithin t _ ht w) (ih _ _ hcs)
      · simp only [runCmds, Cmd.exec, h]
        exact grewWithin_refl _ _

theorem grewWithin_append_empty {σ : Type} (tl : List (Transaction σ)) (what : String)
    (w w1 : World σ)
    (h : grewWithin (tl ++ [{ mWhat := what, mOperations := [] }]) w w1) :
    grewWithin tl w w1 := by
  obtain ⟨extra, hc, hm⟩ := h
  refine ⟨extra, hc, ?_⟩
  intro e he
  obtain ⟨t, ht, hmem⟩ := hm e he
  rcases List.mem_append.mp ht with h1 | h1
  · exact ⟨t, h1, hmem⟩
  · rw [List.mem_singleton] at h1
    subst h1
    simp [Transaction.callbacks] at hmem

/-- C3 (branch discard).  In a manager with `n` transactions and cursor index `c`,
`-1 ≤ c ≤ n-1`, the call `begin(what)` succeeds and invokes no callback (the world, log
included, is returned as it was); the new timeline is the transactions `0..c` in their order
followed by one new transaction labelled `what` with no operations, so every transaction at
an index above `c` is gone; `size() = c+2` and `lastIndex() = c+1`; a `redo()` right after it
stops on its assertion without invoking anything; and whatever sequence of `undo()`/`redo()`
calls follows, every callback it invokes is stored in one of the kept transactions `0..c`,
so no callback is invoked on behalf of a removed transaction. -/
theorem begin_discards_branch {σ : Type} (m : TransactionManager σ) (what : String)
    (w : World σ) (hlo : -1 ≤ m.lastIndex) (hhi : m.lastIndex ≤ (m.size : Int) - 1) :
    ∃ m1 : TransactionManager σ,
      m.begin what w = Except.ok (m1, w)
      ∧ m1.mTimeLine = m.mTimeLine.take (m.lastIndex + 1).toNat
            ++ [{ mWhat := what, mOperations := [] }]
      ∧ (∀ i : Nat, (i : Int) ≤ m.lastIndex → m1.mTimeLine[i]? = m.mTimeLine[i]?)
      ∧ (m1.size : Int) = m.lastIndex + 2
      ∧ m1.lastIndex = m.lastIndex + 1
      ∧ (∀ w1 : World σ, m1.redo w1 = Except.error (Fault.assertion, w1))
      ∧ ∀ cmds : List (Cmd σ), navigationOnly cmds →
          grewWithin (m.mTimeLine.take (m.lastIndex + 1).toNat) w
            (worldOf (runCmds cmds (m1, w))) := by
  simp only [TransactionManager.lastIndex, TransactionManager.size] at *
  obtain ⟨c, hc⟩ : ∃ c : Nat, m.mCurrent + 1 = (c : Int) :=
    ⟨(m.mCurrent + 1).toNat, (Int.toNat_of_nonneg (by omega)).symm⟩
  have hlen : c ≤ m.mTimeLine.length := by omega
  have hb := begin_of_valid m what w c hc hlen
  have htk : (m.mTimeLine.take c).length = c := by simp; omega
  refine ⟨_, hb, ?_, ?_, ?_, ?_, ?_, ?_⟩
  · simp [hc]
  · intro i hi
    have hic : i < c := by omega
    show (m.mTimeLine.take c ++ [_])[i]? = m.mTimeLine[i]?
    rw [List.getElem?_append_left (by omega), List.getElem?_take_of_lt hic]
  · show ((m.mTimeLine.take c ++ [_]).length : Int) = m.mCurrent + 2
    rw [List.length_append, htk]
    simp
    omega
  · show (c : Int) = m.mCurrent + 1
    omega
  · intro w1
    simp [TransactionManager.redo, TransactionManager.notAtEnd, htk, hlen]
  · intro cmds hnav
    have := navigation_grewWithin cmds
      { mTimeLine := m.mTimeLine.take c ++ [{ mWhat := what, mOperations := [] }],
        mCurrent := (c : Int) } w hnav
    rw [hc]
    exact grewWithin_append_empty _ what _ _ this

theorem runCmds_append {σ : Type} (xs ys : List (Cmd σ)) :
    ∀ s : TransactionManager σ × World σ,
      runCmds (xs ++ ys) s =
        match runCmds xs s with
        | Except.ok s1 => runCmds ys s1
        | Except.error e => Except.error e := by
  induction xs with
  | nil => intro s; rfl
  | cons c cs ih =>
    intro s
    simp only [List.cons_append, runCmds]
    cases c.exec s with
    | ok s1 => exact ih s1
    | error e => rfl

theorem stores_ok {σ : Type} (ops : List (operation σ)) :
    ∀ (m : TransactionManager σ) (w : World σ) (n : Nat),
      m.mCurrent = (n : Int) → n < m.mTimeLine.length →
      ∃ s, runCmds (ops.map (fun op => Cmd.storeAndExecute op.1 op.2)) (m, w) = Except.ok s
        ∧ s.1.mCurrent = (n : Int) ∧ s.1.mTimeLine.length = m.mTimeLine.length := by
  induction ops with
  | nil => intro m w n hc _; exact ⟨(m, w), rfl, hc, rfl⟩
  | cons op ops ih =>
    intro m w n hc hn
    obtain ⟨t, ht⟩ : ∃ t, m.mTimeLine[n]? = some t :=
      ⟨m.mTimeLine[n], List.getElem?_eq_getElem hn⟩
    have h1 := storeAndExecute_of_getElem m op.1 op.2 w n t hc ht
    obtain ⟨s, hs, hcur, hl⟩ := ih
      { mTimeLine := m.mTimeLine.set n
            { mWhat := t.mWhat, mOperations := t.mOperations ++ [(op.1, op.2)] },
        mCurrent := (n : Int) } (w.invokeRedo op.1) n rfl (by simpa using hn)
    refine ⟨s, ?_, hcur, by simpa using hl⟩
    simp only [List.map_cons, runCmds, Cmd.exec, h1]
    exact hs

theorem group_ok {σ : Type} (g : String × List (operation σ)) (m : TransactionManager σ)
    (w : World σ)
    (hc : m.mCurrent = (m.mTimeLine.length : Int) ∨ m.mCurrent + 1 = (m.mTimeLine.length : Int)) :
    ∃ s, runCmds (groupCmds g) (m, w) = Except.ok s
      ∧ s.1.mCurrent = (m.mTimeLine.length : Int)
      ∧ s.1.mTimeLine.length = m.mTimeLine.length + 1 := by
  have hb : m.begin g.1 w = Except.ok
      ({ mTimeLine := m.mTimeLine ++ [{ mWhat := g.1, mOperations := [] }],
         mCurrent := (m.mTimeLine.length : Int) }, w) := by
    rcases hc with hc | hc
    · exact begin_at_end m g.1 w hc
    · have := begin_of_valid m g.1 w m.mTimeLine.length hc (le_refl _)
      simpa using this
  obtain ⟨s, hs, hcur, hl⟩ := stores_ok g.2
    { mTimeLine := m.mTimeLine ++ [{ mWhat := g.1, mOperations := [] }],
      mCurrent := (m.mTimeLine.length : Int) } w m.mTimeLine.length rfl (by simp)
  refine ⟨s, ?_, hcur, by simpa using hl⟩
  simp only [groupCmds, runCmds, Cmd.exec, hb]
  rw [runCmds_append, hs]
  rfl

theorem groups_ok {σ : Type} (gs : List (String × List (operation σ))) :
    ∀ (m : TransactionManager σ) (w : World σ),
      (m.mCurrent = (m.mTimeLine.length : Int) ∨ m.mCurrent + 1 = (m.mTimeLine.length : Int)) →
      ∃ s, runCmds (groupsCmds gs) (m, w) = Except.ok s
        ∧ s.1.mTimeLine.length = m.mTimeLine.length + gs.length
        ∧ (gs ≠ [] → s.1.mCurrent + 1 = (s.1.mTimeLine.length : Int)) := by
  induction gs with
  | nil => intro m w _; exact ⟨(m, w), rfl, rfl, fun h => absurd rfl h⟩
  | cons g gs ih =>
    intro m w hc
    obtain ⟨s1, h1, hcur1, hl1⟩ := group_ok g m w hc
    obtain ⟨s2, h2, hl2, hcur2⟩ := ih s1.1 s1.2 (Or.inr (by rw [hcur1, hl1]; simp))
    refine ⟨s2, ?_, ?_, ?_⟩
    · simp only [groupsCmds]
      rw [runCmds_append, h1]
      exact h2
    · rw [hl2, hl1, List.length_cons]; omega
    · intro _
      by_cases hgs : gs = []
      · subst hgs
        simp only [groupsCmds, runCmds] at h2
        cases h2
        rw [hcur1, hl1]; simp
      · exact hcur2 hgs

/-- C4 (counting after commits).  Start from a new manager and run groups of the form
`begin(label); storeAndExecute(redo, undo)*; commit()`.  For every `i` with `1 ≤ i ≤ n`, the
first `i` groups of a sequence of `n` groups all succeed, and after the commit of the `i`-th
group `size() = i` and `lastIndex() = size() - 1 = i - 1`. -/
theorem counting_after_commits {σ : Type} (gs : List (String × List (operation σ)))
    (w0 : World σ) (i : Nat) (h1 : 1 ≤ i) (h2 : i ≤ gs.length) :
    ∃ s : TransactionManager σ × World σ,
      runCmds (groupsCmds (gs.take i)) (TransactionManager.new σ, w0) = Except.ok s
      ∧ s.1.size = i
      ∧ s.1.lastIndex = (s.1.size : Int) - 1
      ∧ s.1.lastIndex = (i : Int) - 1 := by
  have hlen : (gs.take i).length = i := by simp; omega
  have hne : gs.take i ≠ [] := by
    intro h; rw [h] at hlen; simp at hlen; omega
  obtain ⟨s, hs, hl, hcur⟩ := groups_ok (gs.take i) (TransactionManager.new σ) w0 (Or.inl rfl)
  have hc := hcur hne
  simp only [TransactionManager.new, List.length_nil, Nat.zero_add, hlen] at hl
  refine ⟨s, hs, hl, ?_, ?_⟩
  · simp only [TransactionManager.lastIndex, TransactionManager.size]; omega
  · simp only [TransactionManager.lastIndex]; omega

/-- C10 (effect of storeAndExecute).  If the cursor references a transaction `t`, then
`storeAndExecute(do_f, undo_f)` succeeds; the log grows by exactly one entry, the invocation
of `do_f` as a redo callback (so `undo_f` is not invoked), and the caller's data becomes
`do_f` of the old data; the cursor's transaction keeps its label and its old operations, in
order, followed by the new pair `(do_f, undo_f)`; `size()` and `lastIndex()` are unchanged
and so is the transaction at every other position. -/
theorem storeAndExecute_effect {σ : Type} (m : TransactionManager σ)
    (do_f : redo_function_t σ) (undo_f : undo_function_t σ) (w : World σ)
    (t : Transaction σ) (ht : m.deref m.mCurrent = some t) :
    ∃ (m1 : TransactionManager σ) (w1 : World σ),
      m.storeAndExecute do_f undo_f w = Except.ok (m1, w1)
      ∧ w1.calls = w.calls ++ [Call.redo do_f]
      ∧ w1.data = do_f w.data
      ∧ m1.deref m1.mCurrent =
          some { mWhat := t.mWhat, mOperations := t.mOperations ++ [(do_f, undo_f)] }
      ∧ m1.size = m.size
      ∧ m1.lastIndex = m.lastIndex
      ∧ ∀ i : Int, i ≠ m.mCurrent → m1.deref i = m.deref i := by
  obtain ⟨n, hn, hget⟩ := deref_eq_some m _ t ht
  have hlt := getElem?_lt _ _ _ hget
  refine ⟨_, _, storeAndExecute_of_getElem m do_f undo_f w n t hn hget, rfl, rfl, ?_, ?_, ?_, ?_⟩
  · simp [TransactionManager.deref, hlt]
  · simp [TransactionManager.size]
  · exact hn.symm
  · intro i hi
    unfold TransactionManager.deref
    by_cases h0 : 0 ≤ i
    · simp only [if_pos h0]
      have : n ≠ i.toNat := by omega
      exact List.getElem?_set_ne this
    · simp only [if_neg h0]

theorem begin_inRange {σ : Type} (m : TransactionManager σ) (what : String) (w : World σ)
    (s : TransactionManager σ × World σ) (h : m.begin what w = Except.ok s) :
    cursorInRange s.1 := by
  unfold TransactionManager.begin at h
  by_cases h1 : m.notAtEnd = true
  · rw [if_pos h1] at h
    by_cases h2 : 0 ≤ m.mCurrent + 1 ∧ m.mCurrent + 1 ≤ (m.mTimeLine.length : Int)
    · rw [if_pos h2] at h
      cases h
      simp only [cursorInRange]
      omega
    · rw [if_neg h2] at h
      cases h
  · rw [if_neg h1] at h
    cases h
    simp only [cursorInRange]
    omega

theorem storeAndExecute_inRange {σ : Type} (m : TransactionManager σ)
    (do_f : redo_function_t σ) (undo_f : undo_function_t σ) (w : World σ)
    (s : TransactionManager σ × World σ) (h : m.storeAndExecute do_f undo_f w = Except.ok s)
    (hin : cursorInRange m) : cursorInRange s.1 := by
  unfold TransactionManager.storeAndExecute at h
  by_cases h1 : m.notAtEnd = true
  · rw [if_pos h1] at h
    cases hd : m.deref m.mCurrent with
    | none => rw [hd] at h; cases h
    | some t =>
      rw [hd] at h
      cases h
      simpa [cursorInRange] using hin
  · rw [if_neg h1] at h
    cases h

theorem rollback_inRange {σ : Type} (m : TransactionManager σ) (w : World σ)
    (s : TransactionManager σ × World σ) (h : m.rollback w = Except.ok s) :
    cursorInRange s.1 := by
  unfold TransactionManager.rollback at h
  by_cases h1 : m.notAtEnd = true
  · rw [if_pos h1] at h
    cases hd : m.deref m.mCurrent with
    | none => rw [hd] at h; cases h
    | some t =>
      rw [hd] at h
      cases h
      obtain ⟨n, hn, hget⟩ := deref_eq_some m _ t hd
      have hlt := getElem?_lt _ _ _ hget
      simp only [cursorInRange, List.length_dropLast]
      omega
  · rw [if_neg h1] at h
    cases h

theorem undo_inRange {σ : Type} (m : TransactionManager σ) (w : World σ)
    (s : TransactionManager σ × World σ) (h : m.undo w = Except.ok s) :
    cursorInRange s.1 := by
  unfold TransactionManager.undo at h
  by_cases h1 : m.notAtEnd = true
  · rw [if_pos h1] at h
    cases hd : m.deref m.mCurrent with
    | none => rw [hd] at h; cases h
    | some t =>
      rw [hd] at h
      cases h
      obtain ⟨n, hn, hget⟩ := deref_eq_some m _ t hd
      have hlt := getElem?_lt _ _ _ hget
      simp only [cursorInRange]
      omega
  · rw [if_neg h1] at h
    cases h

theorem redo_inRange {σ : Type} (m : TransactionManager σ) (w : World σ)
    (s : TransactionManager σ × World σ) (h : m.redo w = Except.ok s) :
    cursorInRange s.1 := by
  rcases redo_cases m w with ⟨t, _, h2⟩ | ⟨f, h2⟩
  · rw [h2] at h
    cases h
    unfold TransactionManager.redo at h2
    by_cases h1 : m.notAtEnd = true
    · rw [if_pos h1] at h2
      simp only at h2
      by_cases h3 : TransactionManager.notAtEnd
          { mTimeLine := m.mTimeLine, mCurrent := m.mCurrent + 1 } = true
      · rw [if_pos h3] at h2
        cases hd : TransactionManager.deref
            { mTimeLine := m.mTimeLine, mCurrent := m.mCurrent + 1 } (m.mCurrent + 1) with
        | none => rw [hd] at h2; cases h2
        | some t1 =>
          obtain ⟨n, hn, hget⟩ := deref_eq_some _ _ t1 hd
          have hlt := getElem?_lt _ _ _ hget
          simp only [cursorInRange]
          simp only at hlt
          omega
      · rw [if_neg h3] at h2
        cases h2
    · rw [if_neg h1] at h2
      cases h2
  · rw [h2] at h
    cases h

theorem exec_inRange {σ : Type} (c : Cmd σ) (s s1 : TransactionManager σ × World σ)
    (h : c.exec s = Except.ok s1) (hin : cursorInRange s.1) : cursorInRange s1.1 := by
  cases c with
  | begin what => exact begin_inRange _ _ _ _ h
  | storeAndExecute do_f undo_f => exact storeAndExecute_inRange _ _ _ _ _ h hin
  | commit =>
    simp only [Cmd.exec, TransactionManager.commit] at h
    cases h
    exact hin
  | rollback => exact rollback_inRange _ _ _ h
  | undo => exact undo_inRange _ _ _ h
  | redo => exact redo_inRange _ _ _ h

theorem runCmds_inRange {σ : Type} (cmds : List (Cmd σ)) :
    ∀ s s1 : TransactionManager σ × World σ,
      runCmds cmds s = Except.ok s1 → cursorInRange s.1 → cursorInRange s1.1 := by
  induction cmds with
  | nil =>
    intro s s1 h hin
    simp only [runCmds] at h
    cases h
    exact hin
  | cons c cs ih =>
    intro s s1 h hin
    simp only [runCmds] at h
    cases hc : c.exec s with
    | error e => rw [hc] at h; cases h
    | ok s2 =>
      rw [hc] at h
      exact ih s2 s1 h (exec_inRange c s s2 hc hin)

theorem new_inRange (σ : Type) : cursorInRange (TransactionManager.new σ) := by
  simp [cursorInRange, TransactionManager.new]

theorem redo_ok_of_next {σ : Type} (m : TransactionManager σ) (w : World σ)
    (hlo : -1 ≤ m.mCurrent) (hnext : m.mCurrent + 1 < (m.mTimeLine.length : Int)) :
    ∃ s, m.redo w = Except.ok s := by
  obtain ⟨c, hc⟩ : ∃ c : Nat, m.mCurrent + 1 = (c : Int) :=
    ⟨(m.mCurrent + 1).toNat, (Int.toNat_of_nonneg (by omega)).symm⟩
  have hlt : c < m.mTimeLine.length := by omega
  exact ⟨_, redo_of_getElem m w c m.mTimeLine[c] hc (List.getElem?_eq_getElem hlt)⟩

theorem redo_assertion_of_no_next {σ : Type} (m : TransactionManager σ) (w : World σ)
    (hin : cursorInRange m) (hnext : ¬ m.mCurrent + 1 < (m.mTimeLine.length : Int)) :
    m.redo w = Except.error (Fault.assertion, w) := by
  obtain ⟨hlo, hhi⟩ := hin
  unfold TransactionManager.redo
  by_cases h1 : m.mCurrent = (m.mTimeLine.length : Int)
  · simp [TransactionManager.notAtEnd, h1]
  · have h2 : m.mCurrent + 1 = (m.mTimeLine.length : Int) := by omega
    simp [TransactionManager.notAtEnd, h1, h2]

/-- C8 (redo precondition).  In every state that a sequence of successful calls reaches
from a new manager, `redo()` succeeds exactly when a transaction exists right after the
cursor, `lastIndex() + 1 < size()`.  It stops on an assertion when the cursor is at the last
timeline entry and when the timeline is empty, and whenever it stops it does so on an
assertion with the world, log included, as it was: no callback has been invoked. -/
theorem redo_precondition {σ : Type} (cmds : List (Cmd σ)) (w0 : World σ)
    (s : TransactionManager σ × World σ)
    (hreach : runCmds cmds (TransactionManager.new σ, w0) = Except.ok s) (w : World σ) :
    ((∃ s1, s.1.redo w = Except.ok s1) ↔ s.1.lastIndex + 1 < (s.1.size : Int))
    ∧ (s.1.lastIndex = (s.1.size : Int) - 1 → s.1.redo w = Except.error (Fault.assertion, w))
    ∧ (s.1.size = 0 → s.1.redo w = Except.error (Fault.assertion, w))
    ∧ (∀ e, s.1.redo w = Except.error e → e = (Fault.assertion, w)) := by
  have hin : cursorInRange s.1 := runCmds_inRange cmds _ s hreach (new_inRange σ)
  simp only [TransactionManager.lastIndex, TransactionManager.size]
  refine ⟨⟨?_, ?_⟩, ?_, ?_, ?_⟩
  · rintro ⟨s1, hs1⟩
    by_contra hno
    rw [redo_assertion_of_no_next s.1 w hin hno] at hs1
    cases hs1
  · intro hnext
    exact redo_ok_of_next s.1 w hin.1 hnext
  · intro hlast
    exact redo_assertion_of_no_next s.1 w hin (by omega)
  · intro hempty
    have hlo := hin.1
    unfold cursorInRange at hin
    exact redo_assertion_of_no_next s.1 w hin (by omega)
  · intro e he
    by_cases hnext : s.1.mCurrent + 1 < (s.1.mTimeLine.length : Int)
    · obtain ⟨s1, hs1⟩ := redo_ok_of_next s.1 w hin.1 hnext
      rw [hs1] at he
      cases he
    · rw [redo_assertion_of_no_next s.1 w hin hnext] at he
      cases he
      rfl

/-- Both operations of `shiftTx` are inverse pairs. -/
theorem shiftTx_inversePairs : shiftTx.inversePairs := by
  intro op hop
  simp only [shiftTx, List.mem_cons, List.mem_singleton, List.not_mem_nil, or_false] at hop
  rcases hop with rfl | rfl <;> constructor <;> intro d <;> simp

/-- C5 (multi-operation ordering), evaluated on the code.  One transaction is recorded by two
`storeAndExecute` calls, `"Hello" → "Hello World" → "Hello World!"`, and committed; the
datum is then `"Hello World!"`.  After `undo()` and `redo()` the datum is `"Hello World"`,
not the final value of the recording: `Transaction::redo` walks the operations from last to
first, so the redo callback of the first operation runs last. -/
theorem multi_operation_undo_redo_result :
    ∃ s s1 : TransactionManager item × World item,
      runCmds twoStepRecording (TransactionManager.new item, helloWorld) = Except.ok s
      ∧ s.2.data.a = "Hello World!"
      ∧ runCmds [Cmd.undo, Cmd.redo] s = Except.ok s1
      ∧ s1.2.data.a = "Hello World" :=
  ⟨_, _, rfl, rfl, rfl, rfl⟩

/-- C6 (undo deactivates the whole transaction), evaluated on the code.  After the same
two-operation recording from `"Hello"`, `undo()` moves the cursor to `-1` but leaves the
datum at `"Hello World"`, not at the value `"Hello"` it had before the transaction:
`Transaction::undo` walks the operations from first to last, so the undo callback of the last
operation runs last. -/
theorem multi_operation_undo_result :
    ∃ s s1 : TransactionManager item × World item,
      runCmds twoStepRecording (TransactionManager.new item, helloWorld) = Except.ok s
      ∧ s.1.undo s.2 = Except.ok s1
      ∧ s1.1.lastIndex = -1
      ∧ s1.2.data.a = "Hello World" :=
  ⟨_, _, rfl, rfl, rfl, rfl⟩

/-- C7 (undo precondition), evaluated on the code.  After one committed transaction and one
`undo()` the cursor is before the first transaction, `lastIndex() = -1`.  The test
`mCurrent != mTimeLine.end()` of the assertion is true there, so the assertion of a second
`undo()` does not fire; the call goes on to use the iterator one before `begin()`, which the
model reports as an out-of-range access. -/
theorem undo_before_first_result :
    ∃ s : TransactionManager item × World item,
      runCmds recordThenUndo (TransactionManager.new item, helloWorld) = Except.ok s
      ∧ s.1.lastIndex = -1
      ∧ s.1.notAtEnd = true
      ∧ s.1.undo s.2 = Except.error (Fault.outOfRange, s.2) :=
  ⟨_, rfl, rfl, rfl, rfl⟩

/-- C9 (storeAndExecute precondition), evaluated on the code.  With a non-empty timeline
and the cursor before the first transaction (`lastIndex() = -1`, `size() = 1`), the test
`mCurrent != mTimeLine.end()` of the assertion is true, so the assertion of
`storeAndExecute` does not fire.  The call goes on: it invokes the redo callback, so the
datum becomes `"Hello!"` and the log grows from two entries to three, and only then stops
on the out-of-range access to the transaction one before `begin()`. -/
theorem storeAndExecute_before_first_result :
    ∃ s : TransactionManager item × World item,
      runCmds recordThenUndo (TransactionManager.new item, helloWorld) = Except.ok s
      ∧ s.1.lastIndex = -1
      ∧ s.1.size = 1
      ∧ s.1.notAtEnd = true
      ∧ s.2.data.a = "Hello"
      ∧ s.2.calls.length = 2
      ∧ ∃ w1 : World item,
          s.1.storeAndExecute (assignA "Hello!") (assignA "Hello") s.2
            = Except.error (Fault.outOfRange, w1)
          ∧ w1.data.a = "Hello!"
          ∧ w1.calls = s.2.calls ++ [Call.redo (assignA "Hello!")]
          ∧ w1.calls.length = 3 :=
  ⟨_, rfl, rfl, rfl, rfl, rfl, rfl, _, rfl, rfl, rfl, rfl⟩

/-- The recording of "Undo redo test 3", two calls of `undo()`, one call of `redo()`. -/
theorem history_navigation_witness :
    1 ≤ testEntries.length ∧ 2 ≤ testEntries.length ∧ 1 ≤ 2 ∧
    ∃ s1 s2 s3 : TransactionManager item × World item,
      recordAll testEntries
          (TransactionManager.new item, { data := { a := "Hello", b := "Other" }, calls := [] })
          = Except.ok s1
        ∧ s1.2.data = { a := valueAt "Hello" testEntries testEntries.length, b := "Other" }
        ∧ undoTimes 2 s1 = Except.ok s2
        ∧ s2.2.data = { a := valueAt "Hello" testEntries (testEntries.length - 2), b := "Other" }
        ∧ s2.1.lastIndex = (testEntries.length : Int) - ((2 : Nat) : Int) - 1
        ∧ s2.1.size = testEntries.length
        ∧ redoTimes 1 s2 = Except.ok s3
        ∧ s3.2.data = { a := valueAt "Hello" testEntries (testEntries.length - 2 + 1), b := "Other" }
        ∧ s3.1.lastIndex = (testEntries.length : Int) - ((2 : Nat) : Int) + ((1 : Nat) : Int) - 1
        ∧ s3.1.size = testEntries.length :=
  ⟨by decide, by decide, by decide,
    history_navigation "Hello" "Other" [] testEntries 2 1 (by decide) (by decide) (by decide)⟩

/-- Both round trips on a manager holding `shiftTx`, from the datum `7`. -/
theorem undo_redo_round_trip_witness :
    (shiftApplied.deref shiftApplied.mCurrent = some shiftTx ∧ shiftTx.inversePairs ∧
      ∃ s1 s2 : TransactionManager Int × World Int,
        shiftApplied.undo { data := 7, calls := [] } = Except.ok s1
        ∧ s1.1.redo s1.2 = Except.ok s2
        ∧ s2.2.data = 7 ∧ s2.1.mCurrent = shiftApplied.mCurrent
        ∧ s2.1.mTimeLine = shiftApplied.mTimeLine)
    ∧
    (shiftUndone.deref (shiftUndone.mCurrent + 1) = some shiftTx ∧ shiftTx.inversePairs ∧
      ∃ s1 s2 : TransactionManager Int × World Int,
        shiftUndone.redo { data := 7, calls := [] } = Except.ok s1
        ∧ s1.1.undo s1.2 = Except.ok s2
        ∧ s2.2.data = 7 ∧ s2.1.mCurrent = shiftUndone.mCurrent
        ∧ s2.1.mTimeLine = shiftUndone.mTimeLine) :=
  ⟨⟨rfl, shiftTx_inversePairs,
      (undo_redo_round_trip shiftApplied { data := 7, calls := [] }).1 shiftTx rfl
        shiftTx_inversePairs⟩,
   ⟨rfl, shiftTx_inversePairs,
      (undo_redo_round_trip shiftUndone { data := 7, calls := [] }).2 shiftTx rfl
        shiftTx_inversePairs⟩⟩

/-- The third `begin` of "Undo redo test 4". -/
theorem begin_discards_branch_witness :
    -1 ≤ afterOneUndo.lastIndex ∧ afterOneUndo.lastIndex ≤ (afterOneUndo.size : Int) - 1 ∧
    ∃ m1 : TransactionManager item,
      afterOneUndo.begin "Add another !" helloWorld = Except.ok (m1, helloWorld)
      ∧ m1.mTimeLine = afterOneUndo.mTimeLine.take (afterOneUndo.lastIndex + 1).toNat
            ++ [{ mWhat := "Add another !", mOperations := [] }]
      ∧ (∀ i : Nat, (i : Int) ≤ afterOneUndo.lastIndex →
            m1.mTimeLine[i]? = afterOneUndo.mTimeLine[i]?)
      ∧ (m1.size : Int) = afterOneUndo.lastIndex + 2
      ∧ m1.lastIndex = afterOneUndo.lastIndex + 1
      ∧ (∀ w1 : World item, m1.redo w1 = Except.error (Fault.assertion, w1))
      ∧ ∀ cmds : List (Cmd item), navigationOnly cmds →
          grewWithin (afterOneUndo.mTimeLine.take (afterOneUndo.lastIndex + 1).toNat) helloWorld
            (worldOf (runCmds cmds (m1, helloWorld))) :=
  ⟨by decide, by decide,
    begin_discards_branch afterOneUndo "Add another !" helloWorld (by decide) (by decide)⟩

/-- Two groups, the second without a `storeAndExecute` call. -/
theorem counting_after_commits_witness :
    1 ≤ 2 ∧ 2 ≤ testGroups.length ∧
    ∃ s : TransactionManager item × World item,
      runCmds (groupsCmds (testGroups.take 2)) (TransactionManager.new item, helloWorld)
          = Except.ok s
      ∧ s.1.size = 2
      ∧ s.1.lastIndex = (s.1.size : Int) - 1
      ∧ s.1.lastIndex = ((2 : Nat) : Int) - 1 :=
  ⟨by decide, by decide,
    counting_after_commits testGroups helloWorld 2 (by decide) (by decide)⟩

/-- The state after "Undo redo test 2": a transaction exists after the cursor. -/
theorem redo_precondition_witness :
    runCmds recordThenUndo (TransactionManager.new item, helloWorld) = Except.ok undoneState
    ∧ ((∃ s1, undoneState.1.redo helloWorld = Except.ok s1)
          ↔ undoneState.1.lastIndex + 1 < (undoneState.1.size : Int))
    ∧ (undoneState.1.lastIndex = (undoneState.1.size : Int) - 1 →
          undoneState.1.redo helloWorld = Except.error (Fault.assertion, helloWorld))
    ∧ (undoneState.1.size = 0 →
          undoneState.1.redo helloWorld = Except.error (Fault.assertion, helloWorld))
    ∧ (∀ e, undoneState.1.redo helloWorld = Except.error e → e = (Fault.assertion, helloWorld)) :=
  ⟨rfl, redo_precondition recordThenUndo helloWorld undoneState rfl helloWorld⟩

/-- Recording a third operation into `shiftTx`. -/
theorem storeAndExecute_effect_witness :
    shiftApplied.deref shiftApplied.mCurrent = some shiftTx ∧
    ∃ (m1 : TransactionManager Int) (w1 : World Int),
      shiftApplied.storeAndExecute (fun d => d * 2) (fun d => d / 2) { data := 7, calls := [] }
          = Except.ok (m1, w1)
      ∧ w1.calls = [] ++ [Call.redo (fun d => d * 2)]
      ∧ w1.data = (fun d => d * 2) 7
      ∧ m1.deref m1.mCurrent =
          some { mWhat := shiftTx.mWhat,
                 mOperations := shiftTx.mOperations ++ [(fun d => d * 2, fun d => d / 2)] }
      ∧ m1.size = shiftApplied.size
      ∧ m1.lastIndex = shiftApplied.lastIndex
      ∧ ∀ i : Int, i ≠ shiftApplied.mCurrent → m1.deref i = shiftApplied.deref i :=
  ⟨rfl, storeAndExecute_effect shiftApplied (fun d => d * 2) (fun d => d / 2)
      { data := 7, calls := [] } shiftTx rfl⟩

/-- C11 (replay order).  For a transaction with operations `o_1, ..., o_n` in insertion
order, `Transaction::redo` adds to the log exactly the redo invocations of `o_n, ..., o_1`, in
that order, each once, and no undo invocation, and the data is the result of applying those
redo callbacks in that order; `Transaction::undo` adds exactly the undo invocations of
`o_1, ..., o_n`, in that order, each once, and no redo invocation, and the data is the result
of applying those undo callbacks in that order; with no operations both leave the world,
log included, as it was. -/
theorem replay_order {σ : Type} (t : Transaction σ) (w : World σ) :
    (t.redo w).calls = w.calls ++ t.mOperations.reverse.map (fun op => Call.redo op.1)
    ∧ (t.redo w).data = t.mOperations.foldr (fun op d => op.1 d) w.data
    ∧ (t.undo w).calls = w.calls ++ t.mOperations.map (fun op => Call.undo op.2)
    ∧ (t.undo w).data = t.mOperations.foldl (fun d op => op.2 d) w.data
    ∧ (∀ what : String,
        Transaction.redo { mWhat := what, mOperations := [] } w = w
        ∧ Transaction.undo { mWhat := what, mOperations := [] } w = w) :=
  ⟨redo_calls t w, redo_data t w, undo_calls t w, undo_data t w, fun _ => ⟨rfl, rfl⟩⟩

/-- C14 (undo and redo only move the cursor).  Whenever `undo()` succeeds, the timeline
after it is the timeline before it, `size()` is unchanged and `lastIndex()` is one less;
whenever `redo()` succeeds, the timeline and `size()` are unchanged and `lastIndex()` is one
more. -/
theorem undo_redo_move_cursor_only {σ : Type} (m : TransactionManager σ) (w : World σ) :
    (∀ s1 : TransactionManager σ × World σ, m.undo w = Except.ok s1 →
      s1.1.mTimeLine = m.mTimeLine ∧ s1.1.size = m.size ∧ s1.1.lastIndex = m.lastIndex - 1)
    ∧
    (∀ s1 : TransactionManager σ × World σ, m.redo w = Except.ok s1 →
      s1.1.mTimeLine = m.mTimeLine ∧ s1.1.size = m.size ∧ s1.1.lastIndex = m.lastIndex + 1) := by
  constructor
  · intro s1 h
    rcases undo_cases m w with ⟨t, _, h2⟩ | ⟨f, h2⟩
    · rw [h2] at h
      cases h
      exact ⟨rfl, rfl, rfl⟩
    · rw [h2] at h
      cases h
  · intro s1 h
    rcases redo_cases m w with ⟨t, _, h2⟩ | ⟨f, h2⟩
    · rw [h2] at h
      cases h
      exact ⟨rfl, rfl, rfl⟩
    · rw [h2] at h
      cases h

/-- From the manager of "Undo redo test 4" with the cursor on the first of two transactions:
one `undo()` and, separately, one `redo()`. -/
theorem undo_redo_move_cursor_only_witness :
    (afterOneUndo.undo helloWorld = Except.ok
        ({ mTimeLine := afterOneUndo.mTimeLine, mCurrent := -1 },
         { data := { a := "Hello", b := "Other" }, calls := [Call.undo (assignA "Hello")] })
      ∧ (afterOneUndo.mTimeLine = afterOneUndo.mTimeLine
          ∧ TransactionManager.size
              { mTimeLine := afterOneUndo.mTimeLine, mCurrent := (-1 : Int) } = afterOneUndo.size
          ∧ TransactionManager.lastIndex
              { mTimeLine := afterOneUndo.mTimeLine, mCurrent := (-1 : Int) }
              = afterOneUndo.lastIndex - 1))
    ∧
    (afterOneUndo.redo helloWorld = Except.ok
        ({ mTimeLine := afterOneUndo.mTimeLine, mCurrent := 1 },
         { data := { a := "Hello World!", b := "Other" },
           calls := [Call.redo (assignA "Hello World!")] })
      ∧ (afterOneUndo.mTimeLine = afterOneUndo.mTimeLine
          ∧ TransactionManager.size
              { mTimeLine := afterOneUndo.mTimeLine, mCurrent := (1 : Int) } = afterOneUndo.size
          ∧ TransactionManager.lastIndex
              { mTimeLine := afterOneUndo.mTimeLine, mCurrent := (1 : Int) }
              = afterOneUndo.lastIndex + 1)) :=
  ⟨⟨rfl, (undo_redo_move_cursor_only afterOneUndo helloWorld).1 _ rfl⟩,
   ⟨rfl, (undo_redo_move_cursor_only afterOneUndo helloWorld).2 _ rfl⟩⟩

/-- C15 (commit is a no-op that never fails).  In every manager state `commit()` returns
with the manager (timeline and cursor) and the world (data and log) exactly as they were;
this holds in particular for a new manager and for the manager right after `begin(what)` on
a new manager, whose open transaction has no operations. -/
theorem commit_is_noop {σ : Type} (m : TransactionManager σ) (w : World σ) :
    m.commit w = Except.ok (m, w)
    ∧ (TransactionManager.new σ).commit w = Except.ok (TransactionManager.new σ, w)
    ∧ (∀ what : String, ∃ m1 : TransactionManager σ,
        (TransactionManager.new σ).begin what w = Except.ok (m1, w)
        ∧ m1.deref m1.mCurrent = some { mWhat := what, mOperations := [] }
        ∧ m1.commit w = Except.ok (m1, w)) :=
  ⟨rfl, rfl, fun _ => ⟨_, rfl, rfl, rfl⟩⟩

theorem dropLast_append_of_getElem {α : Type} (l : List α) (t : α)
    (h : l[l.length - 1]? = some t) : l.dropLast ++ [t] = l := by
  have hne : l ≠ [] := by
    intro hl
    subst hl
    simp at h
  have h1 := List.dropLast_concat_getLast hne
  have h2 : l.getLast hne = t := by
    have h3 : l.getLast? = some t := by rw [List.getLast?_eq_getElem?]; exact h
    rw [List.getLast?_eq_getLast l hne] at h3
    exact Option.some.inj h3
  rw [h2] at h1
  exact h1

theorem rollback_of_getElem {σ : Type} (m : TransactionManager σ) (w : World σ) (i : Nat)
    (t : Transaction σ) (hc : m.mCurrent = (i : Int)) (ht : m.mTimeLine[i]? = some t) :
    m.rollback w = Except.ok
      ({ mTimeLine := m.mTimeLine.dropLast, mCurrent := (i : Int) }, t.redo w) := by
  have hlt := getElem?_lt _ _ _ ht
  have hne : (i : Int) ≠ (m.mTimeLine.length : Int) := by omega
  simp [TransactionManager.rollback, TransactionManager.notAtEnd, TransactionManager.deref,
    hc, hne, ht]

/-- What a successful `rollback()` does.  If the cursor references a transaction `t`,
`rollback()` succeeds; it adds to the log exactly the redo invocations of `t`, last operation
first, and no undo invocation, and applies those callbacks to the data; it then removes the
last transaction of the timeline (`pop_back`), so `size()` decreases by exactly one and every
transaction before the last one stays where it was, unchanged.  The removed transaction is
`t` when the cursor is at the last entry; when the cursor is at an earlier entry, `t` stays in
the timeline at the cursor. -/
theorem rollback_effect {σ : Type} (m : TransactionManager σ) (w : World σ)
    (t : Transaction σ) (ht : m.deref m.mCurrent = some t) :
    ∃ (m1 : TransactionManager σ) (w1 : World σ),
      m.rollback w = Except.ok (m1, w1)
      ∧ w1.calls = w.calls ++ t.mOperations.reverse.map (fun op => Call.redo op.1)
      ∧ w1.data = t.mOperations.foldr (fun op d => op.1 d) w.data
      ∧ m1.mTimeLine = m.mTimeLine.dropLast
      ∧ m1.size + 1 = m.size
      ∧ (∀ i : Nat, i + 1 < m.size → m1.mTimeLine[i]? = m.mTimeLine[i]?)
      ∧ (m.lastIndex = (m.size : Int) - 1 → m1.mTimeLine ++ [t] = m.mTimeLine)
      ∧ (m.lastIndex < (m.size : Int) - 1 → m1.deref m.mCurrent = some t) := by
  obtain ⟨n, hn, hget⟩ := deref_eq_some m _ t ht
  have hlt := getElem?_lt _ _ _ hget
  refine ⟨_, _, rollback_of_getElem m w n t hn hget, redo_calls t w, redo_data t w, rfl,
    ?_, ?_, ?_, ?_⟩
  · simp only [TransactionManager.size, List.length_dropLast]
    omega
  · intro i hi
    simp only [TransactionManager.size] at hi
    show m.mTimeLine.dropLast[i]? = m.mTimeLine[i]?
    rw [List.dropLast_eq_take, List.getElem?_take_of_lt (by omega)]
  · intro hlast
    simp only [TransactionManager.lastIndex, TransactionManager.size] at hlast
    have hn1 : n = m.mTimeLine.length - 1 := by omega
    show m.mTimeLine.dropLast ++ [t] = m.mTimeLine
    exact dropLast_append_of_getElem _ t (hn1 ▸ hget)
  · intro hmid
    simp only [TransactionManager.lastIndex, TransactionManager.size] at hmid
    rw [hn, deref_natCast]
    show m.mTimeLine.dropLast[n]? = some t
    rw [List.dropLast_eq_take, List.getElem?_take_of_lt (by omega)]
    exact hget

/-- C12 (rollback effect), evaluated on the code.  After the two commits and the one
`undo()` of "Undo redo test 4" the timeline holds "Add string" and "Add another string" and
the cursor references the first, "Add string".  `rollback()` then succeeds, replays the redo
callback of "Add string" (and no undo callback), and `pop_back()` removes the other
transaction, "Add another string": `size()` goes from 2 to 1, the cursor's transaction is
still in the timeline at index 0, and the result is not the timeline with the cursor's
transaction taken out. -/
theorem rollback_keeps_cursor_transaction :
    ∃ (s : TransactionManager item × World item) (m1 : TransactionManager item)
      (w1 : World item),
      runCmds twoCommitsThenUndo (TransactionManager.new item, helloWorld) = Except.ok s
      ∧ s.1.mTimeLine.map Transaction.mWhat = ["Add string", "Add another string"]
      ∧ s.1.lastIndex = 0
      ∧ s.1.size = 2
      ∧ (s.1.deref s.1.mCurrent).map Transaction.mWhat = some "Add string"
      ∧ s.1.rollback s.2 = Except.ok (m1, w1)
      ∧ w1.calls = s.2.calls ++ [Call.redo (assignA "Hello World")]
      ∧ m1.size = 1
      ∧ m1.mTimeLine.map Transaction.mWhat = ["Add string"]
      ∧ m1.mTimeLine[0]? = s.1.deref s.1.mCurrent
      ∧ m1.mTimeLine ≠ s.1.mTimeLine.eraseIdx s.1.mCurrent.toNat := by
  refine ⟨_, _, _, rfl, rfl, rfl, rfl, rfl, rfl, rfl, rfl, rfl, rfl, ?_⟩
  intro h
  have h2 := congrArg (List.map Transaction.mWhat) h
  revert h2
  decide

theorem storeAndExecute_ok_inv {σ : Type} (m : TransactionManager σ)
    (do_f : redo_function_t σ) (undo_f : undo_function_t σ) (w : World σ)
    (s1 : TransactionManager σ × World σ) (h : m.storeAndExecute do_f undo_f w = Except.ok s1) :
    ∃ t, m.deref m.mCurrent = some t := by
  unfold TransactionManager.storeAndExecute at h
  by_cases h1 : m.notAtEnd = true
  · rw [if_pos h1] at h
    cases hd : m.deref m.mCurrent with
    | none => rw [hd] at h; cases h
    | some t => exact ⟨t, rfl⟩
  · rw [if_neg h1] at h
    cases h

theorem rollback_ok_inv {σ : Type} (m : TransactionManager σ) (w : World σ)
    (s1 : TransactionManager σ × World σ) (h : m.rollback w = Except.ok s1) :
    ∃ t, m.deref m.mCurrent = some t := by
  unfold TransactionManager.rollback at h
  by_cases h1 : m.notAtEnd = true
  · rw [if_pos h1] at h
    cases hd : m.deref m.mCurrent with
    | none => rw [hd] at h; cases h
    | some t => exact ⟨t, rfl⟩
  · rw [if_neg h1] at h
    cases h

theorem begin_ok_inv {σ : Type} (m : TransactionManager σ) (what : String) (w : World σ)
    (s1 : TransactionManager σ × World σ) (h : m.begin what w = Except.ok s1) :
    (m.mCurrent = (m.mTimeLine.length : Int)
      ∧ s1 = ({ mTimeLine := m.mTimeLine ++ [{ mWhat := what, mOperations := [] }],
                mCurrent := (m.mTimeLine.length : Int) }, w))
    ∨ (∃ c : Nat, m.mCurrent + 1 = (c : Int) ∧ c ≤ m.mTimeLine.length
      ∧ s1 = ({ mTimeLine := m.mTimeLine.take c ++ [{ mWhat := what, mOperations := [] }],
                mCurrent := (c : Int) }, w)) := by
  by_cases h1 : m.mCurrent = (m.mTimeLine.length : Int)
  · rw [begin_at_end m what w h1] at h
    cases h
    exact Or.inl ⟨h1, rfl⟩
  · by_cases h2 : 0 ≤ m.mCurrent + 1 ∧ m.mCurrent + 1 ≤ (m.mTimeLine.length : Int)
    · obtain ⟨c, hc⟩ : ∃ c : Nat, m.mCurrent + 1 = (c : Int) :=
        ⟨(m.mCurrent + 1).toNat, (Int.toNat_of_nonneg h2.1).symm⟩
      have hlen : c ≤ m.mTimeLine.length := by omega
      rw [begin_of_valid m what w c hc hlen] at h
      cases h
      exact Or.inr ⟨c, hc, hlen, rfl⟩
    · simp [TransactionManager.begin, TransactionManager.notAtEnd, h1, h2] at h

theorem undo_redo_frame {σ : Type} (m : TransactionManager σ) (w : World σ) :
    (∀ s1 : TransactionManager σ × World σ, m.undo w = Except.ok s1 →
      s1.1.mTimeLine = m.mTimeLine)
    ∧ (∀ s1 : TransactionManager σ × World σ, m.redo w = Except.ok s1 →
      s1.1.mTimeLine = m.mTimeLine) := by
  constructor
  · intro s1 h
    rcases undo_cases m w with ⟨t, _, h2⟩ | ⟨f, h2⟩
    · rw [h2] at h
      cases h
      rfl
    · rw [h2] at h
      cases h
  · intro s1 h
    rcases redo_cases m w with ⟨t, _, h2⟩ | ⟨f, h2⟩
    · rw [h2] at h
      cases h
      rfl
    · rw [h2] at h
      cases h

theorem exec_frame {σ : Type} (c : Cmd σ) (s s1 : TransactionManager σ × World σ)
    (h : c.exec s = Except.ok s1) (i : Nat) (t t1 : Transaction σ)
    (hi : s.1.mTimeLine[i]? = some t) (hi1 : s1.1.mTimeLine[i]? = some t1) :
    t1 = t
    ∨ (∃ do_f undo_f, c = Cmd.storeAndExecute do_f undo_f ∧ (i : Int) = s.1.mCurrent
        ∧ t1 = { mWhat := t.mWhat, mOperations := t.mOperations ++ [(do_f, undo_f)] })
    ∨ (∃ what, c = Cmd.begin what ∧ (i : Int) = s.1.mCurrent + 1
        ∧ t1 = { mWhat := what, mOperations := [] }) := by
  have hlt := getElem?_lt _ _ _ hi
  cases c with
  | begin what =>
    rcases begin_ok_inv _ _ _ _ h with ⟨_, rfl⟩ | ⟨c, hc, hlen, rfl⟩
    · left
      simp only at hi1
      rw [List.getElem?_append_left hlt, hi] at hi1
      exact (Option.some.inj hi1).symm
    · simp only at hi1
      have htk : (s.1.mTimeLine.take c).length = c := by simp; omega
      by_cases hic : i < c
      · left
        rw [List.getElem?_append_left (by omega), List.getElem?_take_of_lt hic, hi] at hi1
        exact (Option.some.inj hi1).symm
      · right; right
        have hlt1 := getElem?_lt _ _ _ hi1
        simp only [List.length_append, htk, List.length_singleton] at hlt1
        have hieq : i = c := by omega
        subst hieq
        refine ⟨what, rfl, hc.symm, ?_⟩
        rw [List.getElem?_append_right (by omega), htk] at hi1
        simp at hi1
        exact hi1.symm
  | storeAndExecute do_f undo_f =>
    obtain ⟨tc, htc⟩ := storeAndExecute_ok_inv _ _ _ _ _ h
    obtain ⟨n, hn, hget⟩ := deref_eq_some _ _ tc htc
    have h2 := storeAndExecute_of_getElem s.1 do_f undo_f s.2 n tc hn hget
    simp only [Cmd.exec] at h
    rw [h2] at h
    cases h
    simp only at hi1
    by_cases hni : n = i
    · right; left
      subst hni
      rw [hi] at hget
      cases hget
      rw [List.getElem?_set_self hlt] at hi1
      exact ⟨do_f, undo_f, rfl, hn.symm, (Option.some.inj hi1).symm⟩
    · left
      rw [List.getElem?_set_ne hni, hi] at hi1
      exact (Option.some.inj hi1).symm
  | commit =>
    simp only [Cmd.exec, TransactionManager.commit] at h
    cases h
    left
    rw [hi] at hi1
    exact (Option.some.inj hi1).symm
  | rollback =>
    obtain ⟨tc, htc⟩ := rollback_ok_inv _ _ _ h
    obtain ⟨n, hn, hget⟩ := deref_eq_some _ _ tc htc
    have h2 := rollback_of_getElem s.1 s.2 n tc hn hget
    simp only [Cmd.exec] at h
    rw [h2] at h
    cases h
    simp only at hi1
    left
    have hlt1 := getElem?_lt _ _ _ hi1
    simp only [List.length_dropLast] at hlt1
    rw [List.dropLast_eq_take, List.getElem?_take_of_lt hlt1, hi] at hi1
    exact (Option.some.inj hi1).symm
  | undo =>
    left
    have h3 := ((undo_redo_frame s.1 s.2).1 s1 h)
    rw [h3, hi] at hi1
    exact (Option.some.inj hi1).symm
  | redo =>
    left
    have h3 := ((undo_redo_frame s.1 s.2).2 s1 h)
    rw [h3, hi] at hi1
    exact (Option.some.inj hi1).symm

/-- C13 (what changes an operation list, as the code has it).  Let one call succeed.  A
transaction that is at position `i` before and after the call is unchanged, with two
exceptions: the call is `storeAndExecute(do_f, undo_f)` and `i` is the cursor, and then the
transaction has its old operations followed by `(do_f, undo_f)`; or the call is `begin(what)`
and `i` is the position right after the cursor, and then the old transaction was discarded
and the new empty one took its place.  `commit()` freezes nothing: if the cursor references
`t`, then `commit()` followed by `storeAndExecute(do_f, undo_f)` succeeds and appends
`(do_f, undo_f)` to `t`. -/
theorem operations_change_only_by_store {σ : Type} (s : TransactionManager σ × World σ)
    (c : Cmd σ) :
    (∀ s1 : TransactionManager σ × World σ, c.exec s = Except.ok s1 →
      ∀ (i : Nat) (t t1 : Transaction σ),
        s.1.mTimeLine[i]? = some t → s1.1.mTimeLine[i]? = some t1 →
        t1 = t
        ∨ (∃ do_f undo_f, c = Cmd.storeAndExecute do_f undo_f ∧ (i : Int) = s.1.mCurrent
            ∧ t1 = { mWhat := t.mWhat, mOperations := t.mOperations ++ [(do_f, undo_f)] })
        ∨ (∃ what, c = Cmd.begin what ∧ (i : Int) = s.1.mCurrent + 1
            ∧ t1 = { mWhat := what, mOperations := [] }))
    ∧
    (∀ (t : Transaction σ) (do_f : redo_function_t σ) (undo_f : undo_function_t σ),
      s.1.deref s.1.mCurrent = some t →
      ∃ s2 : TransactionManager σ × World σ,
        runCmds [Cmd.commit, Cmd.storeAndExecute do_f undo_f] s = Except.ok s2
        ∧ s2.1.deref s2.1.mCurrent
            = some { mWhat := t.mWhat, mOperations := t.mOperations ++ [(do_f, undo_f)] }) := by
  constructor
  · intro s1 h i t t1 hi hi1
    exact exec_frame c s s1 h i t t1 hi hi1
  · intro t do_f undo_f ht
    obtain ⟨n, hn, hget⟩ := deref_eq_some _ _ t ht
    have hlt := getElem?_lt _ _ _ hget
    have h2 := storeAndExecute_of_getElem s.1 do_f undo_f s.2 n t hn hget
    refine ⟨({ mTimeLine := s.1.mTimeLine.set n
                  { mWhat := t.mWhat, mOperations := t.mOperations ++ [(do_f, undo_f)] },
               mCurrent := (n : Int) }, s.2.invokeRedo do_f), ?_, ?_⟩
    · simp only [runCmds, Cmd.exec, TransactionManager.commit, h2]
    · simp [TransactionManager.deref, hlt]

/-- A second `storeAndExecute` on the committed transaction of "Undo redo test 1". -/
theorem operations_change_only_by_store_witness :
    (∃ s1 : TransactionManager item × World item,
      (Cmd.storeAndExecute (assignA "Hello World!") (assignA "Hello World")).exec committedState
          = Except.ok s1
      ∧ committedState.1.mTimeLine[0]?
          = some { mWhat := "Add string",
                   mOperations := [(assignA "Hello World", assignA "Hello")] }
      ∧ s1.1.mTimeLine[0]?
          = some { mWhat := "Add string",
                   mOperations := [(assignA "Hello World", assignA "Hello"),
                                   (assignA "Hello World!", assignA "Hello World")] }
      ∧ ((({ mWhat := "Add string",
             mOperations := [(assignA "Hello World", assignA "Hello"),
                             (assignA "Hello World!", assignA "Hello World")] }
              : Transaction item)
            = { mWhat := "Add string",
                mOperations := [(assignA "Hello World", assignA "Hello")] })
        ∨ (∃ do_f undo_f,
            Cmd.storeAndExecute (assignA "Hello World!") (assignA "Hello World")
                = Cmd.storeAndExecute do_f undo_f
            ∧ ((0 : Nat) : Int) = committedState.1.mCurrent
            ∧ ({ mWhat := "Add string",
                 mOperations := [(assignA "Hello World", assignA "Hello"),
                                 (assignA "Hello World!", assignA "Hello World")] }
                  : Transaction item)
              = { mWhat := "Add string",
                  mOperations := [(assignA "Hello World", assignA "Hello")]
                      ++ [(do_f, undo_f)] })
        ∨ (∃ what,
            (Cmd.storeAndExecute (assignA "Hello World!") (assignA "Hello World") : Cmd item)
                = Cmd.begin what
            ∧ ((0 : Nat) : Int) = committedState.1.mCurrent + 1
            ∧ ({ mWhat := "Add string",
                 mOperations := [(assignA "Hello World", assignA "Hello"),
                                 (assignA "Hello World!", assignA "Hello World")] }
                  : Transaction item)
              = { mWhat := what, mOperations := [] })))
    ∧
    (committedState.1.deref committedState.1.mCurrent
        = some { mWhat := "Add string",
                 mOperations := [(assignA "Hello World", assignA "Hello")] }
      ∧ ∃ s2 : TransactionManager item × World item,
        runCmds [Cmd.commit, Cmd.storeAndExecute (assignA "Hello World!") (assignA "Hello World")]
            committedState = Except.ok s2
        ∧ s2.1.deref s2.1.mCurrent
            = some { mWhat := "Add string",
                     mOperations := [(assignA "Hello World", assignA "Hello")]
                        ++ [(assignA "Hello World!", assignA "Hello World")] }) :=
  ⟨⟨_, rfl, rfl, rfl,
      (operations_change_only_by_store committedState
        (Cmd.storeAndExecute (assignA "Hello World!") (assignA "Hello World"))).1 _ rfl 0 _ _
          rfl rfl⟩,
   ⟨rfl,
      (operations_change_only_by_store committedState Cmd.commit).2 _
        (assignA "Hello World!") (assignA "Hello World") rfl⟩⟩

/-- C13, read on the code.  After `begin`, one `storeAndExecute` and `commit()`, the only
transaction has one operation; a further `storeAndExecute` without an intervening `begin`
succeeds and the same committed transaction then has two operations. -/
theorem committed_transaction_grows :
    ∃ s0 s1 : TransactionManager item × World item,
      runCmds [Cmd.begin "Add string",
               Cmd.storeAndExecute (assignA "Hello World") (assignA "Hello"),
               Cmd.commit] (TransactionManager.new item, helloWorld) = Except.ok s0
      ∧ s0.1.mTimeLine.map (fun t => t.mOperations.length) = [1]
      ∧ runCmds [Cmd.storeAndExecute (assignA "Hello World!") (assignA "Hello World")] s0
          = Except.ok s1
      ∧ s1.1.mTimeLine.map (fun t => t.mOperations.length) = [2]
      ∧ s1.1.mTimeLine.map Transaction.mWhat = s0.1.mTimeLine.map Transaction.mWhat :=
  ⟨_, _, rfl, rfl, rfl, rfl, rfl⟩

theorem undo_ok_inv {σ : Type} (m : TransactionManager σ) (w : World σ)
    (s1 : TransactionManager σ × World σ) (h : m.undo w = Except.ok s1) :
    ∃ t, m.deref m.mCurrent = some t := by
  unfold TransactionManager.undo at h
  by_cases h1 : m.notAtEnd = true
  · rw [if_pos h1] at h
    cases hd : m.deref m.mCurrent with
    | none => rw [hd] at h; cases h
    | some t => exact ⟨t, rfl⟩
  · rw [if_neg h1] at h
    cases h

theorem redo_ok_inv {σ : Type} (m : TransactionManager σ) (w : World σ)
    (s1 : TransactionManager σ × World σ) (h : m.redo w = Except.ok s1) :
    ∃ t, m.deref (m.mCurrent + 1) = some t := by
  unfold TransactionManager.redo at h
  by_cases h1 : m.notAtEnd = true
  · rw [if_pos h1] at h
    simp only at h
    by_cases h3 : TransactionManager.notAtEnd
        { mTimeLine := m.mTimeLine, mCurrent := m.mCurrent + 1 } = true
    · rw [if_pos h3] at h
      cases hd : TransactionManager.deref
          { mTimeLine := m.mTimeLine, mCurrent := m.mCurrent + 1 } (m.mCurrent + 1) with
      | none => rw [hd] at h; cases h
      | some t => exact ⟨t, hd⟩
    · rw [if_neg h3] at h
      cases h
  · rw [if_neg h1] at h
    cases h

theorem begin_beforeEnd {σ : Type} (m : TransactionManager σ) (what : String) (w : World σ)
    (s1 : TransactionManager σ × World σ) (h : m.begin what w = Except.ok s1) :
    cursorBeforeEnd s1.1 := by
  rcases begin_ok_inv _ _ _ _ h with ⟨_, rfl⟩ | ⟨c, hc, hlen, rfl⟩
  · simp only [cursorBeforeEnd, List.length_append, List.length_singleton]
    omega
  · have htk : (m.mTimeLine.take c).length = c := by simp; omega
    simp only [cursorBeforeEnd, List.length_append, List.length_singleton, htk]
    omega

theorem exec_beforeEnd {σ : Type} (c : Cmd σ) (s s1 : TransactionManager σ × World σ)
    (hnr : c.isRollback = false) (h : c.exec s = Except.ok s1) (hin : cursorBeforeEnd s.1) :
    cursorBeforeEnd s1.1 := by
  cases c with
  | begin what => exact begin_beforeEnd _ _ _ _ h
  | storeAndExecute do_f undo_f =>
    obtain ⟨tc, htc⟩ := storeAndExecute_ok_inv _ _ _ _ _ h
    obtain ⟨n, hn, hget⟩ := deref_eq_some _ _ tc htc
    have h2 := storeAndExecute_of_getElem s.1 do_f undo_f s.2 n tc hn hget
    simp only [Cmd.exec] at h
    rw [h2] at h
    cases h
    unfold cursorBeforeEnd at hin ⊢
    simp only [List.length_set]
    omega
  | commit =>
    simp only [Cmd.exec, TransactionManager.commit] at h
    cases h
    exact hin
  | rollback => simp [Cmd.isRollback] at hnr
  | undo =>
    obtain ⟨tc, htc⟩ := undo_ok_inv _ _ _ h
    obtain ⟨n, hn, hget⟩ := deref_eq_some _ _ tc htc
    have h2 := undo_of_getElem s.1 s.2 n tc hn hget
    simp only [Cmd.exec] at h
    rw [h2] at h
    cases h
    have hlt := getElem?_lt _ _ _ hget
    unfold cursorBeforeEnd
    simp only
    omega
  | redo =>
    obtain ⟨tc, htc⟩ := redo_ok_inv _ _ _ h
    obtain ⟨n, hn, hget⟩ := deref_eq_some _ _ tc htc
    have h2 := redo_of_getElem s.1 s.2 n tc hn hget
    simp only [Cmd.exec] at h
    rw [h2] at h
    cases h
    have hlt := getElem?_lt _ _ _ hget
    unfold cursorBeforeEnd
    simp only
    omega

theorem runCmds_beforeEnd {σ : Type} (cmds : List (Cmd σ)) :
    ∀ s s1 : TransactionManager σ × World σ,
      (∀ c ∈ cmds, c.isRollback = false) → runCmds cmds s = Except.ok s1 →
      cursorBeforeEnd s.1 → cursorBeforeEnd s1.1 := by
  induction cmds with
  | nil =>
    intro s s1 _ h hin
    simp only [runCmds] at h
    cases h
    exact hin
  | cons c cs ih =>
    intro s s1 hnr h hin
    simp only [runCmds] at h
    cases hc : c.exec s with
    | error e => rw [hc] at h; cases h
    | ok s2 =>
      rw [hc] at h
      exact ih s2 s1 (fun x hx => hnr x (List.mem_cons_of_mem _ hx)) h
        (exec_beforeEnd c s s2 (hnr c (List.mem_cons_self _ _)) hc hin)

theorem runCmds_begin_beforeEnd {σ : Type} (cmds : List (Cmd σ)) :
    ∀ s s1 : TransactionManager σ × World σ,
      (∀ c ∈ cmds, c.isRollback = false) → (∃ c ∈ cmds, c.isBegin = true) →
      runCmds cmds s = Except.ok s1 → cursorBeforeEnd s1.1 := by
  induction cmds with
  | nil =>
    intro s s1 _ hb _
    obtain ⟨c, hc, _⟩ := hb
    simp at hc
  | cons c cs ih =>
    intro s s1 hnr hb h
    have hnr2 : ∀ x ∈ cs, x.isRollback = false := fun x hx => hnr x (List.mem_cons_of_mem _ hx)
    simp only [runCmds] at h
    cases hc : c.exec s with
    | error e => rw [hc] at h; cases h
    | ok s2 =>
      rw [hc] at h
      by_cases hcb : c.isBegin = true
      · cases c with
        | begin what =>
          exact runCmds_beforeEnd cs s2 s1 hnr2 h (begin_beforeEnd _ _ _ _ hc)
        | storeAndExecute _ _ => simp [Cmd.isBegin] at hcb
        | commit => simp [Cmd.isBegin] at hcb
        | rollback => simp [Cmd.isBegin] at hcb
        | undo => simp [Cmd.isBegin] at hcb
        | redo => simp [Cmd.isBegin] at hcb
      · obtain ⟨x, hx, hxb⟩ := hb
        rcases List.mem_cons.mp hx with rfl | hx2
        · exact absurd hxb hcb
        · exact ih s2 s1 hnr2 ⟨x, hx2, hxb⟩ h

theorem exec_at_end {σ : Type} (c : Cmd σ) (s s1 : TransactionManager σ × World σ)
    (hend : s.1.mCurrent = (s.1.mTimeLine.length : Int)) (hnb : c.isBegin = false)
    (h : c.exec s = Except.ok s1) : s1 = s := by
  have hn : s.1.notAtEnd = false := by simp [TransactionManager.notAtEnd, hend]
  cases c with
  | begin what => simp [Cmd.isBegin] at hnb
  | storeAndExecute do_f undo_f =>
    simp [Cmd.exec, TransactionManager.storeAndExecute, hn] at h
  | commit =>
    simp only [Cmd.exec, TransactionManager.commit] at h
    cases h
    rfl
  | rollback => simp [Cmd.exec, TransactionManager.rollback, hn] at h
  | undo => simp [Cmd.exec, TransactionManager.undo, hn] at h
  | redo => simp [Cmd.exec, TransactionManager.redo, hn] at h

theorem runCmds_at_end {σ : Type} (cmds : List (Cmd σ)) :
    ∀ s s1 : TransactionManager σ × World σ,
      s.1.mCurrent = (s.1.mTimeLine.length : Int) → (∀ c ∈ cmds, c.isBegin = false) →
      runCmds cmds s = Except.ok s1 → s1 = s := by
  induction cmds with
  | nil =>
    intro s s1 _ _ h
    simp only [runCmds] at h
    cases h
    rfl
  | cons c cs ih =>
    intro s s1 hend hnb h
    simp only [runCmds] at h
    cases hc : c.exec s with
    | error e => rw [hc] at h; cases h
    | ok s2 =>
      rw [hc] at h
      have h2 := exec_at_end c s s2 hend (hnb c (List.mem_cons_self _ _)) hc
      subst h2
      exact ih _ s1 hend (fun x hx => hnb x (List.mem_cons_of_mem _ hx)) h

/-- C16 (range of lastIndex, as the code has it).  Take a state reached from a new manager
by successful `begin`, `storeAndExecute`, `commit`, `undo` and `redo` calls (no `rollback`).
If at least one of the calls was a `begin`, then `-1 ≤ lastIndex() ≤ size() - 1`.  If none
was, the manager is still as constructed, with the cursor at `end()` of the empty timeline:
`lastIndex() = 0` and `size() = 0`. -/
theorem lastIndex_range {σ : Type} (cmds : List (Cmd σ)) (w0 : World σ)
    (s : TransactionManager σ × World σ)
    (hnr : ∀ c ∈ cmds, c.isRollback = false)
    (hreach : runCmds cmds (TransactionManager.new σ, w0) = Except.ok s) :
    ((∃ c ∈ cmds, c.isBegin = true) →
        -1 ≤ s.1.lastIndex ∧ s.1.lastIndex ≤ (s.1.size : Int) - 1)
    ∧ ((∀ c ∈ cmds, c.isBegin = false) →
        s.1 = TransactionManager.new σ ∧ s.1.lastIndex = 0 ∧ s.1.size = 0) := by
  constructor
  · intro hb
    exact runCmds_begin_beforeEnd cmds _ s hnr hb hreach
  · intro hnb
    have h := runCmds_at_end cmds (TransactionManager.new σ, w0) s rfl hnb hreach
    subst h
    exact ⟨rfl, rfl, rfl⟩

/-- The calls of "Undo redo test 2", and a lone `commit()` on a new manager. -/
theorem lastIndex_range_witness :
    ((∀ c ∈ recordThenUndo, c.isRollback = false)
      ∧ runCmds recordThenUndo (TransactionManager.new item, helloWorld) = Except.ok undoneState
      ∧ (∃ c ∈ recordThenUndo, c.isBegin = true)
      ∧ -1 ≤ undoneState.1.lastIndex
      ∧ undoneState.1.lastIndex ≤ (undoneState.1.size : Int) - 1)
    ∧
    ((∀ c ∈ [(Cmd.commit : Cmd item)], c.isRollback = false)
      ∧ runCmds [Cmd.commit] (TransactionManager.new item, helloWorld)
          = Except.ok (TransactionManager.new item, helloWorld)
      ∧ (∀ c ∈ [(Cmd.commit : Cmd item)], c.isBegin = false)
      ∧ TransactionManager.new item = TransactionManager.new item
      ∧ (TransactionManager.new item).lastIndex = 0
      ∧ (TransactionManager.new item).size = 0) :=
  have h1 : ∀ c ∈ recordThenUndo, c.isRollback = false := by
    intro c hc
    simp only [recordThenUndo, List.mem_cons, List.mem_singleton, List.not_mem_nil, or_false] at hc
    rcases hc with rfl | rfl | rfl | rfl <;> rfl
  have h2 : ∃ c ∈ recordThenUndo, c.isBegin = true :=
    ⟨Cmd.begin "Add string", by simp [recordThenUndo], rfl⟩
  have h3 : ∀ c ∈ [(Cmd.commit : Cmd item)], c.isRollback = false := by
    intro c hc
    rw [List.mem_singleton] at hc
    subst hc
    rfl
  have h4 : ∀ c ∈ [(Cmd.commit : Cmd item)], c.isBegin = false := by
    intro c hc
    rw [List.mem_singleton] at hc
    subst hc
    rfl
  ⟨⟨h1, rfl, h2,
      (lastIndex_range recordThenUndo helloWorld undoneState h1 rfl).1 h2⟩,
   ⟨h3, rfl, h4,
      (lastIndex_range [Cmd.commit] helloWorld (TransactionManager.new item, helloWorld)
        h3 rfl).2 h4⟩⟩

/-- C16, read at the new manager.  A newly constructed manager has `lastIndex() = 0` and
`size() = 0`: `lastIndex()` is neither `-1` nor at most `size() - 1`. -/
theorem new_manager_lastIndex_is_size :
    runCmds [] (TransactionManager.new item, helloWorld)
        = Except.ok (TransactionManager.new item, helloWorld)
    ∧ (TransactionManager.new item).lastIndex = 0
    ∧ (TransactionManager.new item).size = 0
    ∧ (TransactionManager.new item).lastIndex ≠ -1
    ∧ ¬ ((TransactionManager.new item).lastIndex
          ≤ ((TransactionManager.new item).size : Int) - 1) :=
  ⟨rfl, rfl, rfl, by decide, by decide⟩

/-- C17 (cursor after rollback).  With `size() = n ≥ 1` and the cursor on the last entry,
`lastIndex() = n-1`, the call `rollback()` succeeds and leaves the first `n-1` transactions
in the timeline with the cursor equal to `end()`: `lastIndex() = size() = n-1`.  In that
state `undo()`, `redo()`, `storeAndExecute(..)` and `rollback()` each stop on the assertion
without invoking anything, and every sequence of calls without a `begin` that succeeds leaves
the state as it is, so they keep failing until the next `begin`.  The next `begin(what)`
succeeds, discards nothing (the new timeline is the old one followed by the new empty
transaction) and gives `size() = n`, `lastIndex() = n-1`. -/
theorem cursor_after_rollback {σ : Type} (m : TransactionManager σ) (w : World σ) (n : Nat)
    (hn : 1 ≤ n) (hsize : m.size = n) (hcur : m.lastIndex = (n : Int) - 1) :
    ∃ (m1 : TransactionManager σ) (w1 : World σ),
      m.rollback w = Except.ok (m1, w1)
      ∧ m1.notAtEnd = false
      ∧ m1.lastIndex = (n : Int) - 1
      ∧ (m1.size : Int) = (n : Int) - 1
      ∧ m1.mTimeLine = m.mTimeLine.dropLast
      ∧ (∀ w2 : World σ,
          m1.undo w2 = Except.error (Fault.assertion, w2)
          ∧ m1.redo w2 = Except.error (Fault.assertion, w2)
          ∧ (∀ do_f undo_f, m1.storeAndExecute do_f undo_f w2 = Except.error (Fault.assertion, w2))
          ∧ m1.rollback w2 = Except.error (Fault.assertion, w2))
      ∧ (∀ (cmds : List (Cmd σ)) (w2 : World σ) (s : TransactionManager σ × World σ),
          (∀ c ∈ cmds, c.isBegin = false) → runCmds cmds (m1, w2) = Except.ok s → s = (m1, w2))
      ∧ (∀ (what : String) (w2 : World σ), ∃ m2 : TransactionManager σ,
          m1.begin what w2 = Except.ok (m2, w2)
          ∧ m2.mTimeLine = m1.mTimeLine ++ [{ mWhat := what, mOperations := [] }]
          ∧ m2.size = n
          ∧ m2.lastIndex = (n : Int) - 1) := by
  simp only [TransactionManager.size, TransactionManager.lastIndex] at hsize hcur
  obtain ⟨k, rfl⟩ : ∃ k, n = k + 1 := ⟨n - 1, by omega⟩
  have hck : m.mCurrent = (k : Int) := by omega
  have hlt : k < m.mTimeLine.length := by omega
  have hr := rollback_of_getElem m w k m.mTimeLine[k] hck (List.getElem?_eq_getElem hlt)
  have hlen : m.mTimeLine.dropLast.length = k := by simp; omega
  have hend : TransactionManager.notAtEnd
      { mTimeLine := m.mTimeLine.dropLast, mCurrent := (k : Int) } = false := by
    simp [TransactionManager.notAtEnd, hlen]
  refine ⟨_, _, hr, hend, ?_, ?_, rfl, ?_, ?_, ?_⟩
  · show (k : Int) = ((k + 1 : Nat) : Int) - 1
    omega
  · show (m.mTimeLine.dropLast.length : Int) = ((k + 1 : Nat) : Int) - 1
    omega
  · intro w2
    refine ⟨?_, ?_, ?_, ?_⟩
    · simp [TransactionManager.undo, hend]
    · simp [TransactionManager.redo, hend]
    · intro do_f undo_f
      simp [TransactionManager.storeAndExecute, hend]
    · simp [TransactionManager.rollback, hend]
  · intro cmds w2 s hnb h
    exact runCmds_at_end cmds _ s (by simp [hlen]) hnb h
  · intro what w2
    have hb := begin_at_end
      { mTimeLine := m.mTimeLine.dropLast, mCurrent := (k : Int) } what w2 (by simp [hlen])
    refine ⟨_, hb, rfl, ?_, ?_⟩
    · simp [TransactionManager.size, hlen]
    · show (m.mTimeLine.dropLast.length : Int) = ((k + 1 : Nat) : Int) - 1
      omega

/-- C18 (cursor bounds).  In every state reached from a new manager by a sequence of
successful calls, `-1 ≤ lastIndex() ≤ size()`.  Split the sequence as `pre ++ suf`; if `suf`
holds no `rollback` and at least one `begin`, then `lastIndex() ≠ size()`.  Taking for `suf`
the calls after the most recent `rollback` (all calls when there is none) gives:
`lastIndex() = size()` only if no `begin` was called since construction or since the most
recent `rollback`. -/
theorem cursor_bounds {σ : Type} (pre suf : List (Cmd σ)) (w0 : World σ)
    (s : TransactionManager σ × World σ)
    (hreach : runCmds (pre ++ suf) (TransactionManager.new σ, w0) = Except.ok s) :
    (-1 ≤ s.1.lastIndex ∧ s.1.lastIndex ≤ (s.1.size : Int))
    ∧ ((∀ c ∈ suf, c.isRollback = false) → (∃ c ∈ suf, c.isBegin = true) →
        s.1.lastIndex ≠ (s.1.size : Int)) := by
  constructor
  · exact runCmds_inRange (pre ++ suf) _ s hreach (new_inRange σ)
  · intro hnr hb
    rw [runCmds_append] at hreach
    cases hp : runCmds pre (TransactionManager.new σ, w0) with
    | error e => rw [hp] at hreach; cases hreach
    | ok s1 =>
      rw [hp] at hreach
      have h := runCmds_begin_beforeEnd suf s1 s hnr hb hreach
      unfold cursorBeforeEnd at h
      simp only [TransactionManager.lastIndex, TransactionManager.size]
      omega

/-- Two `begin`s, a `rollback`, then a `begin` and an `undo`. -/
theorem cursor_bounds_witness :
    runCmds (beginBeginRollback ++ beginUndo) (TransactionManager.new item, helloWorld)
        = Except.ok thirdUndoneState
    ∧ (∀ c ∈ beginUndo, c.isRollback = false)
    ∧ (∃ c ∈ beginUndo, c.isBegin = true)
    ∧ (-1 ≤ thirdUndoneState.1.lastIndex
        ∧ thirdUndoneState.1.lastIndex ≤ (thirdUndoneState.1.size : Int))
    ∧ thirdUndoneState.1.lastIndex ≠ (thirdUndoneState.1.size : Int) :=
  have h1 : ∀ c ∈ beginUndo, c.isRollback = false := by
    intro c hc
    simp only [beginUndo, List.mem_cons, List.mem_singleton, List.not_mem_nil, or_false] at hc
    rcases hc with rfl | rfl <;> rfl
  have h2 : ∃ c ∈ beginUndo, c.isBegin = true :=
    ⟨Cmd.begin "Third", by simp [beginUndo], rfl⟩
  ⟨rfl, h1, h2,
    (cursor_bounds beginBeginRollback beginUndo helloWorld thirdUndoneState rfl).1,
    (cursor_bounds beginBeginRollback beginUndo helloWorld thirdUndoneState rfl).2 h1 h2⟩

/-- The manager of "Undo redo test 3" after its two commits, `n = 2`. -/
theorem cursor_after_rollback_witness :
    1 ≤ 2 ∧ afterTwoCommits.size = 2 ∧ afterTwoCommits.lastIndex = ((2 : Nat) : Int) - 1 ∧
    ∃ (m1 : TransactionManager item) (w1 : World item),
      afterTwoCommits.rollback helloWorld = Except.ok (m1, w1)
      ∧ m1.notAtEnd = false
      ∧ m1.lastIndex = ((2 : Nat) : Int) - 1
      ∧ (m1.size : Int) = ((2 : Nat) : Int) - 1
      ∧ m1.mTimeLine = afterTwoCommits.mTimeLine.dropLast
      ∧ (∀ w2 : World item,
          m1.undo w2 = Except.error (Fault.assertion, w2)
          ∧ m1.redo w2 = Except.error (Fault.assertion, w2)
          ∧ (∀ do_f undo_f, m1.storeAndExecute do_f undo_f w2 = Except.error (Fault.assertion, w2))
          ∧ m1.rollback w2 = Except.error (Fault.assertion, w2))
      ∧ (∀ (cmds : List (Cmd item)) (w2 : World item) (s : TransactionManager item × World item),
          (∀ c ∈ cmds, c.isBegin = false) → runCmds cmds (m1, w2) = Except.ok s → s = (m1, w2))
      ∧ (∀ (what : String) (w2 : World item), ∃ m2 : TransactionManager item,
          m1.begin what w2 = Except.ok (m2, w2)
          ∧ m2.mTimeLine = m1.mTimeLine ++ [{ mWhat := what, mOperations := [] }]
          ∧ m2.size = 2
          ∧ m2.lastIndex = ((2 : Nat) : Int) - 1) :=
  ⟨by decide, rfl, rfl,
    cursor_after_rollback afterTwoCommits helloWorld 2 (by decide) rfl rfl⟩

end UndoRedo
